import Mathlib

/-!
Verification development for the `blip` structured-logging library.

Go strings and byte slices are modelled as `List Nat` (byte values), Go maps
as association lists in iteration order, and pooled mutable state as explicit
state passing.  Every definition is a direct translation of the corresponding
Go function; the source file and symbol are given in each doc comment.
-/

namespace Blip

/-- Byte-wise lexicographic strict comparison, the semantics of Go's `<` on
strings (UTF-8 byte order). -/
def bytesLt : List Nat → List Nat → Bool
  | _, [] => false
  | [], _ :: _ => true
  | a :: as, b :: bs => a < b || (a == b && bytesLt as bs)

/-- Values carried by log fields (`Field.Value` is `any` in Go).  The model
covers the concretely-serialised families handled by the encoders: strings,
byte slices, the signed/unsigned integer families, booleans and `nil`.  The
floating-point, duration, timestamp and reflective-fallback arms of the Go
type switches are outside the model (floating-point formatting is not
statable in this embedding, and the reflective fallback serialises arbitrary
runtime values); where a theorem's conclusion depends on how values are
serialised, its scope is therefore these families only, and the JSON
encoder's behaviour on the omitted arms — non-finite floats rendered as
bare `NaN`/`+Inf`/`-Inf` tokens, a failed reflective encode writing no value
at all — is recorded in the corrected claim about the JSON record. -/
inductive GoValue where
  | vstr (s : List Nat)
  | vbytes (b : List Nat)
  | vint (i : Int)
  | vuint (n : Nat)
  | vbool (b : Bool)
  | vnull
deriving DecidableEq, Repr

/-- Translation of `Field` (part_005): a key/value pair. -/
structure Field where
  Key : List Nat
  Value : GoValue
deriving DecidableEq, Repr

/-- A Go `F = map[string]any` in iteration order. -/
abbrev FMap := List (List Nat × GoValue)

/-- Translation of `addField` (part_005 lines 38-49): update an existing
entry in place if the key is present, otherwise append a new entry. -/
def addField : List Field → List Nat → GoValue → List Field
  | [], k, v => [⟨k, v⟩]
  | f :: fs, k, v => if f.Key = k then ⟨f.Key, v⟩ :: fs else f :: addField fs k v

/-- Merge of one field map into the accumulating table (the inner loop of
`makeFields`). -/
def addAll (fs : List Field) (m : FMap) : List Field :=
  m.foldl (fun acc kv => addField acc kv.1 kv.2) fs

/-- Translation of `makeFields` (part_005 lines 17-36).  `ctx` is the ambient
field map carried by the context (`FromContext`), `ff` the call-site field
maps.  Note the guard: `n` counts only the call-site entries. -/
def makeFields (ctx : FMap) (ff : List FMap) : Option (List Field) :=
  let n := (ff.map List.length).sum
  if n = 0 then none
  else some (ff.foldl addAll (addAll [] ctx))

/-- Translation of the inner loop of `insertionSort` (part_005 lines 59-65):
inserting element `x` into the sorted prefix `l`, scanning from the right and
swapping while `f[j].Key < f[j-1].Key`.  On a sorted prefix this places `x`
directly before the first element whose key is strictly greater. -/
def orderedInsertGo (x : Field) : List Field → List Field
  | [] => [x]
  | y :: ys => if bytesLt x.Key y.Key then x :: y :: ys else y :: orderedInsertGo x ys

/-- Translation of `insertionSort` (part_005 lines 59-65): the outer loop
grows a sorted prefix by inserting each element in turn. -/
def insertionSort (f : List Field) : List Field :=
  f.foldl (fun acc x => orderedInsertGo x acc) []

/-- Translation of `sortFields` (part_005 lines 51-55). -/
def sortFields (f : List Field) : List Field :=
  if f.length > 1 then insertionSort f else f

/-! ## Buffer pool (buffer.go) -/

/-- Shape of a pooled `Buffer`: its length and capacity (the byte contents are
irrelevant to the pooling discipline). -/
structure Buffer where
  len : Nat
  cap : Nat
deriving DecidableEq, Repr

/-- Translation of `bufferSize` (buffer.go line 19). -/
def bufferSize : Nat := 1024

/-- The buffer pool's free list (`sync.Pool` modelled as a stack; the pool
gives no ordering guarantee, and returning the most recently put buffer is a
possible execution). -/
structure BufferPool where
  free : List Buffer
deriving DecidableEq, Repr

/-- Translation of `putBuffer` (buffer.go lines 220-222): the buffer is
returned to the pool unconditionally, with no capacity check and no
truncation. -/
def putBuffer (p : BufferPool) (buf : Buffer) : BufferPool :=
  ⟨buf :: p.free⟩

/-- Translation of `getBuffer` (buffer.go lines 214-218): take a buffer from
the pool (or allocate one of the default capacity) and reset its length to
zero (`s.b = s.b[:0]`). -/
def getBuffer (p : BufferPool) : Buffer × BufferPool :=
  match p.free with
  | [] => (⟨0, bufferSize⟩, ⟨[]⟩)
  | b :: rest => ({ b with len := 0 }, ⟨rest⟩)

/-! ## Levels and the dispatcher (part_004) -/

/-- Log levels (part_004 lines 38-46, `iota + 1`, so Trace = 1 .. Fatal = 7). -/
inductive Level where
  | trace | debug | info | warn | error | panic | fatal
deriving DecidableEq, Repr

/-- Numeric value of a level (part_004: `LevelTrace Level = iota + 1`). -/
def Level.toNat : Level → Nat
  | .trace => 1
  | .debug => 2
  | .info => 3
  | .warn => 4
  | .error => 5
  | .panic => 6
  | .fatal => 7

/-- Modelled from the spec: `Level.String` is not among the source files (only
its callers are); the spec fixes level labels to 4-character uppercase codes,
matching `levelName` in logger.go (`TRAC`, `DEBU`, `INFO`, `WARN`, `ERRO`,
`PANI`, `FATA`), given here as byte lists. -/
def levelString : Level → List Nat
  | .trace => [84, 82, 65, 67]
  | .debug => [68, 69, 66, 85]
  | .info => [73, 78, 70, 79]
  | .warn => [87, 65, 82, 78]
  | .error => [69, 82, 82, 79]
  | .panic => [80, 65, 78, 73]
  | .fatal => [70, 65, 84, 65]

/-- Translation of the level-normalisation in `New` (part_004 lines 66-69):
an out-of-range configured level falls back to `LevelInfo` (3). -/
def normalizeLevel (l : Int) : Nat :=
  if l < 1 ∨ 7 < l then 3 else l.toNat

/-- Gate tested by each severity method (part_004 lines 98-144):
`Trace` requires `cfg.Level == LevelTrace`; `Debug` .. `Panic` require
`cfg.Level <= Level<Method>`; `Fatal` has no gate. -/
def fires (cfgLevel : Nat) : Level → Bool
  | .trace => cfgLevel == 1
  | .debug => cfgLevel ≤ 2
  | .info => cfgLevel ≤ 3
  | .warn => cfgLevel ≤ 4
  | .error => cfgLevel ≤ 5
  | .panic => cfgLevel ≤ 6
  | .fatal => true

/-- Observable outcome of one severity-method call: the bytes written to the
output stream (if any), and whether the process is terminated afterwards. -/
structure CallResult where
  written : Option (List Nat)
  exits : Bool
deriving DecidableEq

/-- Translation of the severity methods `Trace` .. `Fatal` (part_004 lines
98-148): a gated method encodes and writes via `print` exactly when its gate
passes; `Fatal` always prints and then calls `os.Exit(1)`.  `encode` stands
for the encoder pipeline invoked by `print`. -/
def loggerCall (encode : Level → List Nat) (cfgLevel : Nat) (lev : Level) :
    CallResult :=
  { written := if fires cfgLevel lev then some (encode lev) else none
    exits := lev = Level.fatal }

/-! ## Timestamp cache (part_004 lines 194-207) -/

/-- State captured by the `timeCache` closure: the last formatted instant and
its formatted string.  Instants are integers (nanoseconds); `0` stands for
Go's zero `time.Time`, the initial value of `lastTime` (never produced by
`time.Now()`). -/
structure TimeCacheState where
  lastTime : Int
  lastTimeStr : List Nat
deriving DecidableEq

/-- Initial state of a fresh `timeCache` closure: zero time, empty string. -/
def timeCacheInit : TimeCacheState := ⟨0, []⟩

/-- Translation of the closure body of `timeCache` (part_004 lines 198-206):
if the memo is initialised (`!lastTime.IsZero()`) and the new instant is
within `precision` of the memoised one, return the memo unchanged; otherwise
format the instant and update the memo. -/
def timeCacheCall (format : Int → List Nat) (precision : Int)
    (st : TimeCacheState) (t : Int) : List Nat × TimeCacheState :=
  if st.lastTime ≠ 0 ∧ t - st.lastTime < precision then (st.lastTimeStr, st)
  else (format t, ⟨t, format t⟩)

/-- Bytes of `writeSafeField` (encoder_json.go lines 104-111): the key and
value written with plain quoting, no escaping. -/
def writeSafeField (key val : List Nat) : List Nat :=
  [34] ++ key ++ [34, 58, 34] ++ val ++ [34]

/-- Default JSON key for the timestamp (`"ts"`). -/
def keyTimeD : List Nat := [116, 115]

/-- Translation of `JSONEncoder.EncodeTime` (encoder_json.go lines 44-58)
as a state step on the optional cache: nothing is written when the time
format is empty; a cache is installed on first use only when the precision is
positive; with a cache the memoised string is written as a safe field, and
without one the freshly formatted time is written with bare quotes. -/
def encodeTimeStep (timeFormat : List Nat) (precision : Int)
    (format : Int → List Nat) (cache : Option TimeCacheState) (t : Int) :
    List Nat × Option TimeCacheState :=
  if timeFormat = [] then ([], cache)
  else
    let cache1 := if cache = none ∧ 0 < precision then some timeCacheInit else cache
    match cache1 with
    | some st =>
      let r := timeCacheCall format precision st t
      (writeSafeField keyTimeD r.1, some r.2)
    | none => ([34] ++ format t ++ [34], none)

/-! ## Ambient context fields (part_002 lines 146-161) -/

/-- Heap of live field maps; a context carries a reference (index) to one of
them, so that two contexts can alias the same map. -/
structure CtxHeap where
  maps : List FMap
deriving Repr

/-- Map update: set `k` to `v` in place if present, else append (the
semantics of a Go map store, on the association-list model). -/
def mapSet : FMap → List Nat → GoValue → FMap
  | [], k, v => [(k, v)]
  | kv :: rest, k, v => if kv.1 = k then (k, v) :: rest else kv :: mapSet rest k v

/-- Translation of `maps.Copy(existing, fields)`: every entry of `fields` is
stored into `existing`, in iteration order. -/
def mapsCopy (dst src : FMap) : FMap :=
  src.foldl (fun d kv => mapSet d kv.1 kv.2) dst

/-- First-match lookup in a field table (used to state the merge contract). -/
def fieldLookup : List Field → List Nat → Option GoValue
  | [], _ => none
  | f :: fs, k => if f.Key = k then some f.Value else fieldLookup fs k

/-- First-match lookup in a field map. -/
def mapLookup : FMap → List Nat → Option GoValue
  | [], _ => none
  | kv :: rest, k => if kv.1 = k then some kv.2 else mapLookup rest k

/-- Translation of `WithContext` (part_002 lines 146-154): if the context
already carries a map, the new fields are copied into that same map (shared
with every other context referencing it) and the returned context references
it again; otherwise the given map itself is stored. -/
def WithContext (h : CtxHeap) (ctx : Option Nat) (fields : FMap) :
    CtxHeap × Option Nat :=
  match ctx with
  | none => (⟨h.maps ++ [fields]⟩, some h.maps.length)
  | some i => (⟨h.maps.set i (mapsCopy (h.maps.getD i []) fields)⟩, some i)

/-- Translation of `FromContext` (part_002 lines 156-161): dereference the
context's map, `none` when the context carries no fields. -/
def FromContext (h : CtxHeap) (ctx : Option Nat) : Option FMap :=
  ctx.map fun i => h.maps.getD i []

/-! ## UTF-8 decoding and JSON string escaping (buffer.go lines 119-194) -/

/-- Translation of `utf8.DecodeRuneInString` on a byte-list suffix, returning
(rune, size).  Invalid, truncated, overlong and surrogate encodings yield
`(0xFFFD, 1)`; bit operations are rendered as division/modulus by 64, 4096
and 262144 (`x >> 6 = x / 64`, etc.).  Go returns size 0 on an empty string;
the encoder never decodes at an empty suffix, and size 1 is used here so the
scan always advances. -/
def decodeRune : List Nat → Nat × Nat
  | [] => (0xFFFD, 1)
  | b0 :: rest =>
    if b0 < 0x80 then (b0, 1)
    else if 0xC2 ≤ b0 ∧ b0 ≤ 0xDF then
      match rest with
      | b1 :: _ =>
        if 0x80 ≤ b1 ∧ b1 ≤ 0xBF then ((b0 - 0xC0) * 64 + (b1 - 0x80), 2)
        else (0xFFFD, 1)
      | [] => (0xFFFD, 1)
    else if 0xE0 ≤ b0 ∧ b0 ≤ 0xEF then
      match rest with
      | b1 :: b2 :: _ =>
        let lo := if b0 = 0xE0 then 0xA0 else 0x80
        let hi := if b0 = 0xED then 0x9F else 0xBF
        if lo ≤ b1 ∧ b1 ≤ hi ∧ 0x80 ≤ b2 ∧ b2 ≤ 0xBF then
          ((b0 - 0xE0) * 4096 + (b1 - 0x80) * 64 + (b2 - 0x80), 3)
        else (0xFFFD, 1)
      | _ => (0xFFFD, 1)
    else if 0xF0 ≤ b0 ∧ b0 ≤ 0xF4 then
      match rest with
      | b1 :: b2 :: b3 :: _ =>
        let lo := if b0 = 0xF0 then 0x90 else 0x80
        let hi := if b0 = 0xF4 then 0x8F else 0xBF
        if lo ≤ b1 ∧ b1 ≤ hi ∧ 0x80 ≤ b2 ∧ b2 ≤ 0xBF ∧ 0x80 ≤ b3 ∧ b3 ≤ 0xBF then
          ((b0 - 0xF0) * 262144 + (b1 - 0x80) * 4096 + (b2 - 0x80) * 64 + (b3 - 0x80), 4)
        else (0xFFFD, 1)
      | _ => (0xFFFD, 1)
    else (0xFFFD, 1)

/-- Translation of `utf8.EncodeRune` (used by `Buffer.WriteRune`): standard
UTF-8 encoding; surrogates and out-of-range runes encode the replacement
character.  Bit operations rendered as division/modulus. -/
def encodeRune (r : Nat) : List Nat :=
  if r < 0x80 then [r]
  else if r < 0x800 then [0xC0 + r / 64, 0x80 + r % 64]
  else if 0xD800 ≤ r ∧ r ≤ 0xDFFF then [0xEF, 0xBF, 0xBD]
  else if r < 0x10000 then [0xE0 + r / 4096, 0x80 + r / 64 % 64, 0x80 + r % 64]
  else if r ≤ 0x10FFFF then
    [0xF0 + r / 262144, 0x80 + r / 4096 % 64, 0x80 + r / 64 % 64, 0x80 + r % 64]
  else [0xEF, 0xBF, 0xBD]

/-- The lowercase hexadecimal digit table (`hex` in `writeEscapedASCII`). -/
def hexDigits : List Nat := [48, 49, 50, 51, 52, 53, 54, 55, 56, 57, 97, 98, 99, 100, 101, 102]

/-- Translation of `Buffer.writeEscapedASCII` (buffer.go lines 164-182):
quote and backslash get a two-byte escape, the five named controls get
their short escapes, any other byte below 0x20 becomes a `\u00XX` escape. -/
def writeEscapedASCII (b : Nat) : List Nat :=
  if b = 34 ∨ b = 92 then [92, b]
  else if b = 8 then [92, 98]
  else if b = 12 then [92, 102]
  else if b = 10 then [92, 110]
  else if b = 13 then [92, 114]
  else if b = 9 then [92, 116]
  else [92, 117, 48, 48, hexDigits.getD (b / 16) 48, hexDigits.getD (b % 16) 48]

/-- Bytes of the replacement escape `�`. -/
def replacementEsc : List Nat := [92, 117, 102, 102, 102, 100]

/-- Translation of `Buffer.writeEscapedUTF8` (buffer.go lines 184-194):
decode at the current position; an invalid sequence emits `�` and
reports size 1, a valid rune is re-encoded (producing its original bytes). -/
def writeEscapedUTF8 (l : List Nat) : List Nat × Nat :=
  let rs := decodeRune l
  if rs.1 = 0xFFFD ∧ rs.2 = 1 then (replacementEsc, 1)
  else (encodeRune rs.1, rs.2)

/-- The body of the scan loop of `Buffer.WriteEscapedString` (buffer.go lines
119-162).  The two indices are represented positionally: `pending` is the
unflushed run `s[last:cur]` and `rem` is the unread suffix `s[cur:]`; the Go
code flushes `pending` in bulk (`buf.WriteString(s[last:cur])`) before every
escape and at the end. -/
def escLoop : List Nat → List Nat → List Nat → List Nat
  | pending, [], acc => if pending ≠ [] then acc ++ pending else acc
  | pending, b :: rest, acc =>
    if b < 0x20 ∨ b = 34 ∨ b = 92 then
      escLoop [] rest ((if pending ≠ [] then acc ++ pending else acc) ++ writeEscapedASCII b)
    else if 0x80 ≤ b then
      let ws := writeEscapedUTF8 (b :: rest)
      escLoop [] (rest.drop (ws.2 - 1))
        ((if pending ≠ [] then acc ++ pending else acc) ++ ws.1)
    else escLoop (pending ++ [b]) rest acc
termination_by _ rem _ => rem.length
decreasing_by
  all_goals simp only [List.length_cons, List.length_drop]
  all_goals omega

/-- Translation of `Buffer.WriteEscapedString` (buffer.go lines 119-162):
opening quote, escaped body, closing quote. -/
def writeEscapedString (s : List Nat) : List Nat :=
  [34] ++ escLoop [] s [] ++ [34]

/-- Per-unit restatement of the escaping scan (the claim's algorithm): each
step consumes one escapable byte, one decoded UTF-8 unit, or one plain byte.
`writeEscapedString` is proved equal to the quote-wrapped image of this
function. -/
def escapeSpec : List Nat → List Nat
  | [] => []
  | b :: rest =>
    if b < 0x20 ∨ b = 34 ∨ b = 92 then writeEscapedASCII b ++ escapeSpec rest
    else if 0x80 ≤ b then
      let ws := writeEscapedUTF8 (b :: rest)
      ws.1 ++ escapeSpec (rest.drop (ws.2 - 1))
    else b :: escapeSpec rest
termination_by l => l.length
decreasing_by
  all_goals simp only [List.length_cons, List.length_drop]
  all_goals omega

/-- Decides whether a byte is a lowercase-hex digit byte. -/
def isHex (b : Nat) : Bool :=
  (48 ≤ b ∧ b ≤ 57) ∨ (97 ≤ b ∧ b ≤ 102)

/-- Decides whether a byte is a UTF-8 continuation byte. -/
def isCont (b : Nat) : Bool := 0x80 ≤ b ∧ b ≤ 0xBF

/-- States of the JSON-string-body validator: between units, after a
backslash, inside a `\uXXXX` escape expecting `n` more hex digits, or inside
a UTF-8 sequence expecting `k` more continuation bytes (the next one within
`lo..hi`). -/
inductive VState where
  | vstart
  | vesc
  | vhex (n : Nat)
  | vcont (k lo hi : Nat)
deriving DecidableEq, Repr

/-- One-byte-at-a-time validator for the body of a JSON string literal (per
RFC 8259): a sequence of escape sequences (`\"`, `\\`, `\/`, `\b`, `\f`,
`\n`, `\r`, `\t`, `\uXXXX`), plain bytes in `0x20..0x7F` other than quote
and backslash, and well-formed UTF-8 multi-byte sequences (the `lo`/`hi`
bounds on the first continuation byte exclude overlong forms and
surrogates, as in Go's accept-range table). -/
def vsb : VState → List Nat → Bool
  | .vstart, [] => true
  | .vesc, [] => false
  | .vhex _, [] => false
  | .vcont _ _ _, [] => false
  | .vstart, b :: rest =>
    if b = 92 then vsb .vesc rest
    else if 0x20 ≤ b ∧ b ≤ 0x7F ∧ b ≠ 34 then vsb .vstart rest
    else if 0xC2 ≤ b ∧ b ≤ 0xDF then vsb (.vcont 1 0x80 0xBF) rest
    else if 0xE0 ≤ b ∧ b ≤ 0xEF then
      vsb (.vcont 2 (if b = 0xE0 then 0xA0 else 0x80) (if b = 0xED then 0x9F else 0xBF)) rest
    else if 0xF0 ≤ b ∧ b ≤ 0xF4 then
      vsb (.vcont 3 (if b = 0xF0 then 0x90 else 0x80) (if b = 0xF4 then 0x8F else 0xBF)) rest
    else false
  | .vesc, c :: rest =>
    if c = 34 ∨ c = 92 ∨ c = 47 ∨ c = 98 ∨ c = 102 ∨ c = 110 ∨ c = 114 ∨ c = 116 then
      vsb .vstart rest
    else if c = 117 then vsb (.vhex 4) rest
    else false
  | .vhex n, c :: rest =>
    if isHex c then (if n ≤ 1 then vsb .vstart rest else vsb (.vhex (n - 1)) rest)
    else false
  | .vcont k lo hi, c :: rest =>
    if lo ≤ c ∧ c ≤ hi then
      (if k ≤ 1 then vsb .vstart rest else vsb (.vcont (k - 1) 0x80 0xBF) rest)
    else false

/-- Validity of the body of a JSON string literal: the validator accepts it
from its initial state. -/
def validStrBody (l : List Nat) : Bool := vsb .vstart l

/-! ## Decimal and base64 formatting (buffer.go) -/

/-- Decimal digits of a natural number (`strconv.AppendUint`). -/
def natToDec (n : Nat) : List Nat :=
  if h : n < 10 then [48 + n] else natToDec (n / 10) ++ [48 + n % 10]
decreasing_by omega

/-- Decimal rendering of an integer (`strconv.AppendInt`): minus sign
followed by the digits of the absolute value. -/
def intToDec (i : Int) : List Nat :=
  if i < 0 then 45 :: natToDec i.natAbs else natToDec i.natAbs

/-- Bytes `true` and `false` (`strconv.AppendBool`). -/
def boolToDec (b : Bool) : List Nat :=
  if b then [116, 114, 117, 101] else [102, 97, 108, 115, 101]

/-- The standard base64 alphabet `A-Z a-z 0-9 + /` as bytes. -/
def b64alphabet : List Nat :=
  [65, 66, 67, 68, 69, 70, 71, 72, 73, 74, 75, 76, 77, 78, 79, 80,
   81, 82, 83, 84, 85, 86, 87, 88, 89, 90,
   97, 98, 99, 100, 101, 102, 103, 104, 105, 106, 107, 108, 109, 110, 111, 112,
   113, 114, 115, 116, 117, 118, 119, 120, 121, 122,
   48, 49, 50, 51, 52, 53, 54, 55, 56, 57, 43, 47]

/-- Character of the standard base64 alphabet at index `i` (indices are
always below 64 for byte inputs). -/
def b64char (i : Nat) : Nat := b64alphabet.getD i 65

/-- Translation of `base64.StdEncoding` encoding (used by
`Buffer.WriteBase64`): 3-byte groups become 4 alphabet characters, a 2-byte
tail becomes 3 characters and `=`, a 1-byte tail 2 characters and `==`.  Bit
operations rendered as division/modulus. -/
def base64Encode : List Nat → List Nat
  | [] => []
  | [a] => [b64char (a / 4), b64char (a % 4 * 16), 61, 61]
  | [a, b] => [b64char (a / 4), b64char (a % 4 * 16 + b / 16), b64char (b % 16 * 4), 61]
  | a :: b :: c :: rest =>
    [b64char (a / 4), b64char (a % 4 * 16 + b / 16), b64char (b % 16 * 4 + c / 64),
     b64char (c % 64)] ++ base64Encode rest

/-! ## The JSON encoder (encoder_json.go lines 39-101, default keys) -/

/-- Default JSON key for the level (`"lvl"`). -/
def keyLevelD : List Nat := [108, 118, 108]

/-- Default JSON key for the message (`"msg"`). -/
def keyMsgD : List Nat := [109, 115, 103]

/-- Default JSON key for the stack trace (`"stack"`). -/
def keyStackD : List Nat := [115, 116, 97, 99, 107]

/-- Translation of `JSONEncoder.Start`: the opening brace. -/
def jsonStart : List Nat := [123]

/-- Bytes written by `JSONEncoder.EncodeTime` (encoder_json.go lines 44-58)
on its cached branch only: nothing when the time format is empty, otherwise
the memoised timestamp `ts` as a safe field under the default key.  The
complete `EncodeTime` — including the uncached branch taken when
`TimePrecision ≤ 0`, which writes a bare quoted timestamp with no key — is
`encodeTimeStep`; `jsonRecordFull` composes the record from it, and this
definition is the shape the cached branch produces. -/
def jsonEncodeTime (timeFormat ts : List Nat) : List Nat :=
  if timeFormat = [] then [] else writeSafeField keyTimeD ts

/-- Translation of `JSONEncoder.EncodeLevel` (encoder_json.go lines 61-67):
a separating comma only when a time field was written, then the level label
as a safe field. -/
def jsonEncodeLevel (timeFormat : List Nat) (lev : Level) : List Nat :=
  (if timeFormat = [] then [] else [44]) ++ writeSafeField keyLevelD (levelString lev)

/-- Translation of `JSONEncoder.EncodeMessage` (encoder_json.go lines 70-75):
comma, quoted key, colon, escaped message. -/
def jsonEncodeMessage (msg : List Nat) : List Nat :=
  [44, 34] ++ keyMsgD ++ [34, 58] ++ writeEscapedString msg

/-- Translation of `JSONEncoder.writeAny` (encoder_json.go lines 114-162) on
the modelled value families: escaped strings, quoted base64 byte slices,
`null`, booleans, and decimal integers.  The remaining arms of the Go type
switch are outside the model: the float arms call `strconv.AppendFloat`
(not statable here; for non-finite floats it emits the bare tokens `NaN`,
`+Inf`, `-Inf`, which are not JSON), the duration/timestamp arms quote
runtime-formatted strings, and the default arm runs `json.Encoder.Encode`
discarding its error (a failed encode writes no value, leaving the member
valueless).  Statements about JSON validity therefore hold over the
families modelled here and are corrected accordingly for the rest. -/
def jsonWriteAny : GoValue → List Nat
  | .vstr s => writeEscapedString s
  | .vbytes b => [34] ++ base64Encode b ++ [34]
  | .vnull => [110, 117, 108, 108]
  | .vbool b => boolToDec b
  | .vint i => intToDec i
  | .vuint n => natToDec n

/-- Translation of `JSONEncoder.EncodeFields` (encoder_json.go lines 78-88):
nothing for an absent or empty table, else one `,"key":value` unit per field
with the key escaped. -/
def jsonEncodeFields (fields : Option (List Field)) : List Nat :=
  match fields with
  | none => []
  | some fs =>
    if fs = [] then []
    else (fs.map fun f => [44] ++ writeEscapedString f.Key ++ [58] ++ jsonWriteAny f.Value).flatten

/-- Translation of `JSONEncoder.EncodeStackTrace` (encoder_json.go lines
91-96): comma, quoted key, colon, escaped stack string. -/
def jsonEncodeStackTrace (stack : List Nat) : List Nat :=
  [44, 34] ++ keyStackD ++ [34, 58] ++ writeEscapedString stack

/-- Translation of `JSONEncoder.End`: closing brace and newline. -/
def jsonEnd : List Nat := [125, 10]

/-- The callback sequence driven by `Logger.print` (part_004 lines 150-170)
against the JSON encoder with the time member already rendered (the shape
`EncodeTime`'s cached branch produces): Start, EncodeTime, EncodeLevel,
EncodeMessage, EncodeFields, optionally EncodeStackTrace (when the record's
severity reaches the stack-trace threshold), End. -/
def jsonRecord (timeFormat ts : List Nat) (lev : Level) (msg : List Nat)
    (fields : Option (List Field)) (stack : Option (List Nat)) : List Nat :=
  jsonStart ++ jsonEncodeTime timeFormat ts ++ jsonEncodeLevel timeFormat lev ++
    jsonEncodeMessage msg ++ jsonEncodeFields fields ++
    (match stack with | some st => jsonEncodeStackTrace st | none => []) ++ jsonEnd

/-- The full callback sequence with `EncodeTime` modelled completely via
`encodeTimeStep` (encoder_json.go lines 44-58): both the cached branch
(writing `"ts":"…"`) and the uncached branch taken when `TimePrecision ≤ 0`
(writing a bare quoted timestamp with no key) are covered, driven by the
encoder's time format, precision, formatting function, current cache state
and the current instant. -/
def jsonRecordFull (timeFormat : List Nat) (precision : Int)
    (format : Int → List Nat) (cache : Option TimeCacheState) (t : Int)
    (lev : Level) (msg : List Nat) (fields : Option (List Field))
    (stack : Option (List Nat)) : List Nat :=
  jsonStart ++ (encodeTimeStep timeFormat precision format cache t).1 ++
    jsonEncodeLevel timeFormat lev ++ jsonEncodeMessage msg ++
    jsonEncodeFields fields ++
    (match stack with | some st => jsonEncodeStackTrace st | none => []) ++ jsonEnd

/-! ## A generative grammar for JSON values

Mirrors the value grammar of RFC 8259 (restricted to the productions the
encoder emits: strings, integer numbers, literals and objects; every
constructor is a valid JSON production, so membership implies the bytes
parse as a JSON value). -/

/-- Decides whether a byte is an ASCII digit. -/
def isDigit (b : Nat) : Bool := 48 ≤ b ∧ b ≤ 57

/-- Decides whether a byte sequence is a JSON digit run with no superfluous
leading zero. -/
def jsonDigits (ds : List Nat) : Bool :=
  ds ≠ [] && ds.all isDigit && (ds.head? ≠ some 48 || ds == [48])

/-- Decides whether a byte sequence is a JSON integer numeral: an optional
minus sign, then digits with no superfluous leading zero. -/
def isJsonInt (l : List Nat) : Bool :=
  match l with
  | [] => false
  | d :: ds => if d = 45 then jsonDigits ds else jsonDigits (d :: ds)

/-- Quoted string token built from a (valid) body. -/
def strTok (body : List Nat) : List Nat := 34 :: body ++ [34]

mutual
/-- Byte sequences deriving the JSON `value` production (string, integer
number, literal or object members). -/
inductive JsonValue : List Nat → Prop where
  | str {b : List Nat} : validStrBody b = true → JsonValue (strTok b)
  | num {l : List Nat} : isJsonInt l = true → JsonValue l
  | nullLit : JsonValue [110, 117, 108, 108]
  | trueLit : JsonValue [116, 114, 117, 101]
  | falseLit : JsonValue [102, 97, 108, 115, 101]
  | objEmpty : JsonValue [123, 125]
  | obj {m : List Nat} : JsonMembers m → JsonValue (123 :: m ++ [125])

/-- Byte sequences deriving the JSON `members` production: one or more
`string : value` pairs separated by commas. -/
inductive JsonMembers : List Nat → Prop where
  | last {k v : List Nat} : validStrBody k = true → JsonValue v →
      JsonMembers (strTok k ++ 58 :: v)
  | cons {k v rest : List Nat} : validStrBody k = true → JsonValue v →
      JsonMembers rest → JsonMembers (strTok k ++ 58 :: v ++ 44 :: rest)
end

/-- Concatenation of `"key":value` members separated by commas, used to
reassociate the encoder's output into the grammar's shape. -/
def memberConcat : List (List Nat × List Nat) → List Nat
  | [] => []
  | [(k, v)] => strTok k ++ 58 :: v
  | (k, v) :: rest => strTok k ++ 58 :: v ++ 44 :: memberConcat rest

/-- Key/value byte pair of one JSON object member, the key given as a valid
string body (its quotes added by `memberConcat`). -/
def recordPairs (timeFormat ts : List Nat) (lev : Level) (msg : List Nat)
    (fields : Option (List Field)) (stack : Option (List Nat)) :
    List (List Nat × List Nat) :=
  (if timeFormat = [] then [] else [(keyTimeD, 34 :: ts ++ [34])]) ++
    [(keyLevelD, 34 :: levelString lev ++ [34])] ++
    [(keyMsgD, writeEscapedString msg)] ++
    (match fields with
     | none => []
     | some fs => fs.map fun f => (escapeSpec f.Key, jsonWriteAny f.Value)) ++
    (match stack with
     | none => []
     | some st => [(keyStackD, writeEscapedString st)])

/-- Decides whether a byte may appear raw (unescaped, single-byte) in a JSON
string body: printable ASCII other than quote and backslash. -/
def safeByte (b : Nat) : Bool := 0x20 ≤ b ∧ b ≤ 0x7F ∧ b ≠ 34 ∧ b ≠ 92

/-- Decides whether every byte of a sequence is `safeByte`. -/
def allSafe (l : List Nat) : Bool := l.all safeByte

/-! ## The console encoder (part_001 lines 288-478) -/

/-- ANSI codes used by the console encoder (part_001 lines 298-309). -/
def fontBold : List Nat := [27, 91, 49, 109]

/-- The reset code `ESC [ 0 m`. -/
def fontReset : List Nat := [27, 91, 48, 109]

/-- Code `ESC [ 37 m` (off-white, trace/debug). -/
def colorOffWhite : List Nat := [27, 91, 51, 55, 109]

/-- Code `ESC [ 36 m` (cyan, info). -/
def colorCyan : List Nat := [27, 91, 51, 54, 109]

/-- Code `ESC [ 33 m` (yellow, warn). -/
def colorYellow : List Nat := [27, 91, 51, 51, 109]

/-- Code `ESC [ 31 m` (red, error). -/
def colorRed : List Nat := [27, 91, 51, 49, 109]

/-- Code `ESC [ 48 ; 5 ; 88 m` (red background, panic/fatal). -/
def colorRedBg : List Nat := [27, 91, 52, 56, 59, 53, 59, 56, 56, 109]

/-- Code `ESC [ 38 ; 5 ; 255 m` (white foreground, panic/fatal). -/
def colorWhite : List Nat := [27, 91, 51, 56, 59, 53, 59, 50, 53, 53, 109]

/-- Configuration of the console encoder relevant to message/field layout
(part_001 lines 288-295). -/
structure ConsoleEncoder where
  MinMessageWidth : Nat
  Color : Bool
  SortFields : Bool
deriving DecidableEq, Repr

/-- Translation of `ConsoleEncoder.writeColorized` (part_001 lines 457-478). -/
def writeColorized (e : ConsoleEncoder) (lev : Level) (str : List Nat) : List Nat :=
  if !e.Color then str
  else
    (match lev with
     | .trace | .debug => colorOffWhite
     | .info => colorCyan
     | .warn => colorYellow
     | .error => colorRed
     | .panic | .fatal => colorRedBg ++ colorWhite) ++ str ++ fontReset

/-- The message together with its bold wrapping (the part of
`ConsoleEncoder.EncodeMessage` written before any padding). -/
def consoleMsgHead (e : ConsoleEncoder) (msg : List Nat) : List Nat :=
  (if e.Color then fontBold else []) ++ msg ++ (if e.Color then fontReset else [])

/-- Translation of `ConsoleEncoder.EncodeMessage` (part_001 lines 354-377):
the message (bold-wrapped when color is on), then — when a minimum width is
configured — `MinMessageWidth + 2 - len(msg)` spaces (a non-positive count
yields none, matching `for range` over a negative int), then two further
spaces when the message exceeds the width. -/
def consoleEncodeMessage (e : ConsoleEncoder) (msg : List Nat) : List Nat :=
  if e.MinMessageWidth = 0 then consoleMsgHead e msg
  else
    consoleMsgHead e msg ++ List.replicate (e.MinMessageWidth + 2 - msg.length) 32 ++
      (if msg.length > e.MinMessageWidth then [32, 32] else [])

/-- Translation of `ConsoleEncoder.writeAny` (part_001 lines 415-455) on the
modelled value families (strings and byte slices raw, integers decimal,
booleans literal, `nil` through `fmt.Sprint` as `<nil>`). -/
def consoleWriteAny : GoValue → List Nat
  | .vstr s => s
  | .vbytes b => b
  | .vint i => intToDec i
  | .vuint n => natToDec n
  | .vbool b => boolToDec b
  | .vnull => [60, 110, 105, 108, 62]

/-- Rendering of one `key=value` unit of `ConsoleEncoder.EncodeFields`. -/
def consoleField (e : ConsoleEncoder) (lev : Level) (f : Field) : List Nat :=
  writeColorized e lev f.Key ++ [61] ++ consoleWriteAny f.Value

/-- Translation of `ConsoleEncoder.EncodeFields` (part_001 lines 380-398):
nothing for an absent or empty table; otherwise the table (sorted when
configured) rendered as space-separated `key=value` units, preceded by two
spaces. -/
def consoleEncodeFields (e : ConsoleEncoder) (lev : Level)
    (fields : Option (List Field)) : List Nat :=
  match fields with
  | none => []
  | some fs =>
    if fs = [] then []
    else
      let fs1 := if e.SortFields then sortFields fs else fs
      [32, 32] ++ ((fs1.map (consoleField e lev)).intersperse [32]).flatten

/-! # Theorems -/

/-! ## C5: buffer pool release/acquire -/

/-- C5 (counterexample): releasing a buffer of capacity 20480 — far beyond
ten times the default 1024 — returns it to the pool, and the very next
acquire yields that oversized buffer, contradicting the claimed bound. -/
theorem putBuffer_keeps_oversized :
    (getBuffer (putBuffer ⟨[]⟩ ⟨5, 20480⟩)).1 = ⟨0, 20480⟩ ∧
      10 * bufferSize < 20480 := by decide

/-- C5 (amended): `putBuffer` returns every buffer to the pool unchanged,
with no capacity bound and no truncation; the length reset happens in
`getBuffer` instead, so every acquired buffer has length zero but retains
whatever capacity it last had (an acquired buffer can be oversized). -/
theorem putBuffer_unconditional :
    ∀ (p : BufferPool) (b : Buffer),
      putBuffer p b = ⟨b :: p.free⟩ ∧
      (getBuffer (putBuffer p b)).1 = ⟨0, b.cap⟩ ∧
      ∀ q : BufferPool, (getBuffer q).1.len = 0 := by
  intro p b
  refine ⟨rfl, rfl, ?_⟩
  intro q
  match q with
  | ⟨[]⟩ => rfl
  | ⟨_ :: _⟩ => rfl

/-! ## C4: absent field table -/

/-- C4 (counterexample): with a non-empty ambient context map and no
call-site fields, `makeFields` yields no table at all — the context fields
are dropped, contradicting "absent exactly when the merge result is entirely
empty". -/
theorem makeFields_drops_context :
    makeFields [([97], GoValue.vint 1)] [] = none ∧
      ([([97], GoValue.vint 1)] : FMap) ≠ [] := by decide

/-- C4 (amended): field assembly yields an absent table exactly when the
call-site maps contribute zero entries in total — regardless of the context
fields, which in that case are dropped; when at least one call-site entry
exists, the table merges the ambient-context fields first, then the
call-site maps in order. -/
theorem makeFields_none_iff (ctx : FMap) (ff : List FMap) :
    (makeFields ctx ff = none ↔ (ff.map List.length).sum = 0) ∧
    ((ff.map List.length).sum ≠ 0 →
      makeFields ctx ff = some (ff.foldl addAll (addAll [] ctx))) := by
  by_cases h : (ff.map List.length).sum = 0 <;> simp [makeFields, h]

/-- C4 (witness for the amended claim): one call-site entry with an empty
context produces the singleton table. -/
theorem makeFields_none_iff_witness :
    makeFields [] [[([97], GoValue.vint 1)]] = some [⟨[97], GoValue.vint 1⟩] := by
  have h := (makeFields_none_iff [] [[([97], GoValue.vint 1)]]).2 (by decide)
  rw [h]
  decide

/-! ## C8: level gating -/

/-- C8: after the constructor's normalisation, every severity method writes
its record if and only if its severity is at or above the configured minimum
(in particular `Trace`'s equality test agrees with the ordering test), a
gated-out call writes nothing, `Fatal` always writes, and only `Fatal`
terminates the process. -/
theorem levelGating (encode : Level → List Nat) (raw : Int) (lev : Level) :
    ((loggerCall encode (normalizeLevel raw) lev).written = some (encode lev) ↔
        normalizeLevel raw ≤ lev.toNat) ∧
    ((loggerCall encode (normalizeLevel raw) lev).written = none ↔
        lev.toNat < normalizeLevel raw) ∧
    (loggerCall encode (normalizeLevel raw) Level.fatal).written =
        some (encode Level.fatal) ∧
    ((loggerCall encode (normalizeLevel raw) lev).exits = true ↔ lev = Level.fatal) := by
  have hb : 1 ≤ normalizeLevel raw ∧ normalizeLevel raw ≤ 7 := by
    unfold normalizeLevel
    split <;> omega
  refine ⟨?_, ?_, ?_, ?_⟩
  · cases lev <;> simp [loggerCall, fires, Level.toNat] <;> omega
  · cases lev <;> simp [loggerCall, fires, Level.toNat] <;> omega
  · simp [loggerCall, fires]
  · cases lev <;> simp [loggerCall]

/-! ## C9: timestamp cache -/

/-- C9: the cache formats and memoises on the first call; on any later call
(the memoised instant being a genuine clock reading, hence non-zero) it
returns the memoised string unchanged exactly when the new instant is within
the precision window, and otherwise formats the new instant and replaces the
memo; and with a non-positive precision `EncodeTime` installs no cache and
formats the current instant fresh on every call. -/
theorem timeCacheSpec (format : Int → List Nat) (precision : Int) :
    (∀ t : Int, timeCacheCall format precision timeCacheInit t =
        (format t, ⟨t, format t⟩)) ∧
    (∀ (st : TimeCacheState) (t : Int), st.lastTime ≠ 0 →
      (t - st.lastTime < precision →
        timeCacheCall format precision st t = (st.lastTimeStr, st)) ∧
      (¬ t - st.lastTime < precision →
        timeCacheCall format precision st t = (format t, ⟨t, format t⟩))) ∧
    (precision ≤ 0 → ∀ (timeFormat : List Nat) (t : Int), timeFormat ≠ [] →
      encodeTimeStep timeFormat precision format none t =
        ([34] ++ format t ++ [34], none)) := by
  refine ⟨?_, ?_, ?_⟩
  · intro t
    simp [timeCacheCall, timeCacheInit]
  · intro st t h
    constructor
    · intro hlt
      rw [timeCacheCall, if_pos ⟨h, hlt⟩]
    · intro hge
      rw [timeCacheCall, if_neg]
      intro hc
      exact hge hc.2
  · intro hp timeFormat t htf
    rw [encodeTimeStep, if_neg htf]
    rw [if_neg fun hc => absurd hc.2 (by omega)]

/-- C9 (witness): with precision 5 and format printing the instant's decimal
digits, a memo taken at instant 3 is returned unchanged at instant 4, is
replaced at instant 9, and with precision 0 no cache is installed. -/
theorem timeCacheSpec_witness :
    timeCacheCall (fun t => intToDec t) 5 ⟨3, [57, 57]⟩ 4 = ([57, 57], ⟨3, [57, 57]⟩) ∧
    timeCacheCall (fun t => intToDec t) 5 ⟨3, [57, 57]⟩ 9 =
      (intToDec 9, ⟨9, intToDec 9⟩) ∧
    encodeTimeStep [120] 0 (fun t => intToDec t) none 9 =
      ([34] ++ intToDec 9 ++ [34], none) := by
  refine ⟨?_, ?_, ?_⟩
  · exact ((timeCacheSpec (fun t => intToDec t) 5).2.1 ⟨3, [57, 57]⟩ 4 (by decide)).1
      (by decide)
  · exact ((timeCacheSpec (fun t => intToDec t) 5).2.1 ⟨3, [57, 57]⟩ 9 (by decide)).2
      (by decide)
  · exact (timeCacheSpec (fun t => intToDec t) 0).2.2 (by decide) [120] 9 (by decide)

/-! ## C10: in-place context merge -/

/-- Lookup after a single map store. -/
theorem mapLookup_mapSet (d : FMap) (k : List Nat) (v : GoValue) (k' : List Nat) :
    mapLookup (mapSet d k v) k' = if k = k' then some v else mapLookup d k' := by
  induction d with
  | nil => simp [mapSet, mapLookup]
  | cons kv rest ih =>
    by_cases h : kv.1 = k
    · by_cases h' : k = k' <;> simp [mapSet, mapLookup, h, h']
    · by_cases h' : kv.1 = k'
      · have hne : ¬ k = k' := fun he => h (he ▸ h')
        have hne' : ¬ k' = k := fun he => hne he.symm
        simp [mapSet, mapLookup, h, h', hne, hne']
      · simp [mapSet, mapLookup, h, h', ih]

/-- Lookup over an appended map. -/
theorem mapLookup_append (a b : FMap) (k : List Nat) :
    mapLookup (a ++ b) k =
      (match mapLookup a k with
       | some v => some v
       | none => mapLookup b k) := by
  induction a with
  | nil => simp [mapLookup]
  | cons kv rest ih =>
    by_cases h : kv.1 = k <;> simp [mapLookup, h, ih]

/-- Lookup after `maps.Copy`: the last binding of the source wins, and keys
absent from the source fall back to the destination. -/
theorem mapLookup_mapsCopy (s d : FMap) (k : List Nat) :
    mapLookup (mapsCopy d s) k =
      (match mapLookup s.reverse k with
       | some v => some v
       | none => mapLookup d k) := by
  induction s generalizing d with
  | nil => simp [mapsCopy, mapLookup]
  | cons kv rest ih =>
    have hstep : mapsCopy d (kv :: rest) = mapsCopy (mapSet d kv.1 kv.2) rest := rfl
    rw [hstep, ih, List.reverse_cons, mapLookup_append, mapLookup_mapSet]
    rcases hr : mapLookup rest.reverse k with _ | v
    · by_cases h : kv.1 = k <;> simp [mapLookup, h]
    · simp

/-- C10: when a context already carries an ambient field map, `WithContext`
copies the new entries into that same shared map: the returned context
references the parent's map, and `FromContext` on the original (parent)
context afterwards returns the merged map — in particular it contains every
newly added entry, so the parent's ambient fields do not stay unchanged. -/
theorem withContext_mutates_shared (h : CtxHeap) (i : Nat) (fields : FMap)
    (hi : i < h.maps.length) :
    (WithContext h (some i) fields).2 = some i ∧
    FromContext (WithContext h (some i) fields).1 (some i) =
      some (mapsCopy (h.maps.getD i []) fields) ∧
    (∀ k v, mapLookup fields.reverse k = some v →
      mapLookup ((FromContext (WithContext h (some i) fields).1 (some i)).getD []) k =
        some v) := by
  refine ⟨rfl, ?_, ?_⟩
  · simp only [WithContext, FromContext, Option.map_some']
    rw [List.getD_eq_getElem?_getD,
      List.getElem?_set_eq_of_lt _ (by simpa using hi)]
    rfl
  · intro k v hk
    simp only [WithContext, FromContext, Option.map_some']
    rw [List.getD_eq_getElem?_getD,
      List.getElem?_set_eq_of_lt _ (by simpa using hi)]
    simp only [Option.getD_some]
    rw [mapLookup_mapsCopy, hk]

/-- C10 (witness): adding `b` to a context whose map holds `a` makes the
merged map visible through the original reference. -/
theorem withContext_mutates_shared_witness :
    FromContext
        (WithContext ⟨[[([97], GoValue.vint 1)]]⟩ (some 0) [([98], GoValue.vint 2)]).1
        (some 0) =
      some [([97], GoValue.vint 1), ([98], GoValue.vint 2)] := by
  have h := (withContext_mutates_shared ⟨[[([97], GoValue.vint 1)]]⟩ 0
    [([98], GoValue.vint 2)] (by decide)).2.1
  rw [h]
  decide

/-! ## C1: last-write-wins merge -/

/-- Keys of the table after `addField`: unchanged when the key was present,
extended at the end otherwise. -/
theorem addField_keys (fs : List Field) (k : List Nat) (v : GoValue) :
    (addField fs k v).map Field.Key =
      if k ∈ fs.map Field.Key then fs.map Field.Key else fs.map Field.Key ++ [k] := by
  induction fs with
  | nil => simp [addField]
  | cons f fs ih =>
    by_cases h : f.Key = k
    · simp [addField, h]
    · have hkk : ¬ k = f.Key := fun he => h he.symm
      by_cases hm : k ∈ fs.map Field.Key <;>
        simp [addField, h, hkk, hm, ih]

/-- Value of the stored key after `addField`. -/
theorem fieldLookup_addField_self (fs : List Field) (k : List Nat) (v : GoValue) :
    fieldLookup (addField fs k v) k = some v := by
  induction fs with
  | nil => simp [addField, fieldLookup]
  | cons f fs ih =>
    by_cases h : f.Key = k <;> simp [addField, fieldLookup, h, ih]

/-- Values of the other keys are untouched by `addField`. -/
theorem fieldLookup_addField_other (fs : List Field) (k : List Nat) (v : GoValue)
    (k' : List Nat) (h : k' ≠ k) :
    fieldLookup (addField fs k v) k' = fieldLookup fs k' := by
  have hkk : ¬ k = k' := fun he => h he.symm
  induction fs with
  | nil => simp [addField, fieldLookup, hkk]
  | cons f fs ih =>
    by_cases hf : f.Key = k
    · have hfk : ¬ f.Key = k' := by
        rw [hf]
        exact hkk
      simp [addField, fieldLookup, hf, hkk, hfk, h]
    · by_cases hf' : f.Key = k' <;> simp [addField, fieldLookup, hf, hf', h, ih]

/-- An absent key is appended at the end by `addField`. -/
theorem addField_not_mem (fs : List Field) (k : List Nat) (v : GoValue)
    (h : k ∉ fs.map Field.Key) : addField fs k v = fs ++ [⟨k, v⟩] := by
  induction fs with
  | nil => simp [addField]
  | cons f fs ih =>
    simp only [List.map_cons, List.mem_cons] at h
    push_neg at h
    have : ¬ f.Key = k := fun he => h.1 he.symm
    simp [addField, this, ih h.2]

/-- Key distinctness is preserved by `addField`. -/
theorem addField_keys_nodup (fs : List Field) (k : List Nat) (v : GoValue)
    (h : (fs.map Field.Key).Nodup) : ((addField fs k v).map Field.Key).Nodup := by
  rw [addField_keys]
  split
  · exact h
  · next hmem => simp [List.nodup_append, h, hmem]

/-- Key distinctness is preserved by merging a whole map. -/
theorem addAll_keys_nodup (m : FMap) (fs : List Field)
    (h : (fs.map Field.Key).Nodup) : ((addAll fs m).map Field.Key).Nodup := by
  induction m generalizing fs with
  | nil => exact h
  | cons kv rest ih =>
    have hstep : addAll fs (kv :: rest) = addAll (addField fs kv.1 kv.2) rest := rfl
    rw [hstep]
    exact ih _ (addField_keys_nodup _ _ _ h)

/-- Key distinctness is preserved by merging a sequence of maps. -/
theorem foldl_addAll_keys_nodup (ff : List FMap) (fs : List Field)
    (h : (fs.map Field.Key).Nodup) :
    ((ff.foldl addAll fs).map Field.Key).Nodup := by
  induction ff generalizing fs with
  | nil => exact h
  | cons m rest ih => exact ih _ (addAll_keys_nodup _ _ h)

/-- C1: merging is last-write-wins preserving first-occurrence position — a
present key keeps the key sequence unchanged and takes the new value while
all other keys are untouched, an absent key is appended; merging the context
`a:1` and then the call-site map `a:2, b:3` (in either map-iteration order)
yields exactly the table `[a:2, b:3]`; and every table produced by
`makeFields` has pairwise-distinct keys. -/
theorem fieldMergeSpec :
    (∀ (fs : List Field) (k : List Nat) (v : GoValue), k ∈ fs.map Field.Key →
       (addField fs k v).map Field.Key = fs.map Field.Key ∧
       fieldLookup (addField fs k v) k = some v ∧
       ∀ k', k' ≠ k → fieldLookup (addField fs k v) k' = fieldLookup fs k') ∧
    (∀ (fs : List Field) (k : List Nat) (v : GoValue), k ∉ fs.map Field.Key →
       addField fs k v = fs ++ [⟨k, v⟩]) ∧
    (makeFields [([97], GoValue.vint 1)]
        [[([97], GoValue.vint 2), ([98], GoValue.vint 3)]] =
        some [⟨[97], GoValue.vint 2⟩, ⟨[98], GoValue.vint 3⟩] ∧
      makeFields [([97], GoValue.vint 1)]
        [[([98], GoValue.vint 3), ([97], GoValue.vint 2)]] =
        some [⟨[97], GoValue.vint 2⟩, ⟨[98], GoValue.vint 3⟩]) ∧
    (∀ (ctx : FMap) (ff : List FMap) (fs : List Field),
       makeFields ctx ff = some fs → (fs.map Field.Key).Nodup) := by
  refine ⟨?_, addField_not_mem, by decide, ?_⟩
  · intro fs k v hk
    exact ⟨by rw [addField_keys, if_pos hk], fieldLookup_addField_self _ _ _,
      fun k' h => fieldLookup_addField_other _ _ _ _ h⟩
  · intro ctx ff fs h
    rw [makeFields] at h
    split at h
    · exact absurd h (by simp)
    · cases h
      exact foldl_addAll_keys_nodup _ _ (addAll_keys_nodup _ _ (by simp))

/-- C1 (witness): overwrite of a present key, append of a fresh key, and key
distinctness of the example's merge result. -/
theorem fieldMergeSpec_witness :
    fieldLookup (addField [⟨[97], GoValue.vint 1⟩] [97] (GoValue.vint 2)) [97] =
      some (GoValue.vint 2) ∧
    addField [⟨[97], GoValue.vint 1⟩] [98] (GoValue.vint 3) =
      [⟨[97], GoValue.vint 1⟩, ⟨[98], GoValue.vint 3⟩] ∧
    (([⟨[97], GoValue.vint 2⟩, ⟨[98], GoValue.vint 3⟩] : List Field).map
        Field.Key).Nodup :=
  ⟨(fieldMergeSpec.1 [⟨[97], GoValue.vint 1⟩] [97] (GoValue.vint 2) (by decide)).2.1,
   fieldMergeSpec.2.1 [⟨[97], GoValue.vint 1⟩] [98] (GoValue.vint 3) (by decide),
   fieldMergeSpec.2.2.2 [([97], GoValue.vint 1)]
     [[([97], GoValue.vint 2), ([98], GoValue.vint 3)]]
     [⟨[97], GoValue.vint 2⟩, ⟨[98], GoValue.vint 3⟩] (by decide)⟩

/-! ## C7: stable insertion sort -/

/-- Strict byte order is irreflexive. -/
theorem bytesLt_irrefl : ∀ l : List Nat, bytesLt l l = false
  | [] => rfl
  | a :: as => by simp [bytesLt, bytesLt_irrefl as]

/-- Strict byte order is asymmetric. -/
theorem bytesLt_asymm : ∀ a b : List Nat, bytesLt a b = true → bytesLt b a = false
  | [], [] => by simp [bytesLt]
  | [], _ :: _ => by simp [bytesLt]
  | _ :: _, [] => by simp [bytesLt]
  | x :: xs, y :: ys => by
    rcases Nat.lt_trichotomy x y with h1 | h1 | h1
    · intro _
      simp [bytesLt, show ¬ y < x by omega, show ¬ y = x by omega]
    · subst h1
      intro h
      have hxs : bytesLt xs ys = true := by simpa [bytesLt] using h
      simp [bytesLt, bytesLt_asymm xs ys hxs]
    · simp [bytesLt, show ¬ x < y by omega, show ¬ x = y by omega]

/-- Strict byte order is transitive. -/
theorem bytesLt_trans : ∀ a b c : List Nat,
    bytesLt a b = true → bytesLt b c = true → bytesLt a c = true
  | _, _, [] => by simp [bytesLt]
  | _, [], _ :: _ => by simp [bytesLt]
  | [], _ :: _, _ :: _ => by simp [bytesLt]
  | x :: xs, y :: ys, z :: zs => by
    simp only [bytesLt, Bool.or_eq_true, Bool.and_eq_true, beq_iff_eq,
      decide_eq_true_eq]
    rintro (h1 | ⟨rfl, h1⟩) (h2 | ⟨rfl, h2⟩)
    · left; omega
    · left; omega
    · left; omega
    · right; exact ⟨rfl, bytesLt_trans xs ys zs h1 h2⟩

/-- Membership in an insertion. -/
theorem mem_orderedInsertGo (x z : Field) (l : List Field) :
    z ∈ orderedInsertGo x l ↔ z = x ∨ z ∈ l := by
  induction l with
  | nil => simp [orderedInsertGo]
  | cons y ys ih =>
    by_cases h : bytesLt x.Key y.Key <;>
      simp [orderedInsertGo, h, ih] <;> tauto

/-- An insertion is a permutation of the cons. -/
theorem perm_orderedInsertGo (x : Field) (l : List Field) :
    (orderedInsertGo x l).Perm (x :: l) := by
  induction l with
  | nil => exact List.Perm.refl _
  | cons y ys ih =>
    by_cases h : bytesLt x.Key y.Key
    · rw [orderedInsertGo, if_pos h]
    · rw [orderedInsertGo, if_neg h]
      exact (ih.cons y).trans (List.Perm.swap x y ys)

/-- An insertion into a sorted table is sorted. -/
theorem pairwise_orderedInsertGo (x : Field) (l : List Field)
    (h : l.Pairwise fun a b => bytesLt b.Key a.Key = false) :
    (orderedInsertGo x l).Pairwise fun a b => bytesLt b.Key a.Key = false := by
  induction l with
  | nil => simp [orderedInsertGo]
  | cons y ys ih =>
    rw [List.pairwise_cons] at h
    by_cases hlt : bytesLt x.Key y.Key
    · rw [orderedInsertGo, if_pos hlt, List.pairwise_cons]
      refine ⟨?_, List.pairwise_cons.mpr h⟩
      intro z hz
      rcases List.mem_cons.mp hz with rfl | hz
      · exact bytesLt_asymm _ _ hlt
      · by_cases hb : bytesLt z.Key x.Key = true
        · exact absurd (bytesLt_trans _ _ _ hb hlt) (by simp [h.1 z hz])
        · simpa using hb
    · rw [orderedInsertGo, if_neg hlt, List.pairwise_cons]
      refine ⟨?_, ih h.2⟩
      intro z hz
      rcases (mem_orderedInsertGo x z ys).mp hz with rfl | hz
      · simpa using hlt
      · exact h.1 z hz

/-- Filtering one key commutes with insertion into a sorted table: a matching
element lands after every earlier matching element, a non-matching one drops
out. -/
theorem filter_orderedInsertGo (x : Field) (l : List Field) (k : List Nat)
    (h : l.Pairwise fun a b => bytesLt b.Key a.Key = false) :
    (orderedInsertGo x l).filter (fun f => f.Key == k) =
      if x.Key == k then l.filter (fun f => f.Key == k) ++ [x]
      else l.filter (fun f => f.Key == k) := by
  induction l with
  | nil =>
    by_cases hx : x.Key == k <;> simp [orderedInsertGo, List.filter, hx]
  | cons y ys ih =>
    rw [List.pairwise_cons] at h
    by_cases hlt : bytesLt x.Key y.Key
    · rw [orderedInsertGo, if_pos hlt]
      by_cases hx : x.Key = k
      · have hnil : (y :: ys).filter (fun f => f.Key == k) = [] := by
          rw [List.filter_eq_nil_iff]
          intro z hz
          simp only [beq_iff_eq]
          intro hzk
          rcases List.mem_cons.mp hz with rfl | hz
          · rw [hx, ← hzk] at hlt
            exact absurd hlt (by simp [bytesLt_irrefl])
          · have hzy := h.1 z hz
            rw [hx, ← hzk] at hlt
            exact absurd hlt (by simp [hzy])
        rw [if_pos (by simpa using hx),
          List.filter_cons_of_pos (by simpa using hx), hnil]
        rfl
      · rw [if_neg (by simpa using hx),
          List.filter_cons_of_neg (by simpa using hx)]
    · rw [orderedInsertGo, if_neg hlt]
      rw [List.filter_cons, List.filter_cons, ih h.2]
      by_cases hy : y.Key = k <;> by_cases hx : x.Key = k <;> simp [hy, hx]

/-- The insertion loop permutes its input onto its accumulator. -/
theorem foldl_insert_perm : ∀ (fs acc : List Field),
    (fs.foldl (fun a x => orderedInsertGo x a) acc).Perm (acc ++ fs)
  | [], acc => by simp
  | x :: fs, acc => by
    have ih := foldl_insert_perm fs (orderedInsertGo x acc)
    have h1 : (orderedInsertGo x acc ++ fs).Perm ((x :: acc) ++ fs) :=
      (perm_orderedInsertGo x acc).append_right fs
    exact (ih.trans h1).trans List.perm_middle.symm

/-- The insertion loop keeps the accumulator sorted. -/
theorem foldl_insert_pairwise : ∀ (fs acc : List Field),
    acc.Pairwise (fun a b => bytesLt b.Key a.Key = false) →
    (fs.foldl (fun a x => orderedInsertGo x a) acc).Pairwise
      (fun a b => bytesLt b.Key a.Key = false)
  | [], _, h => h
  | x :: fs, acc, h =>
    foldl_insert_pairwise fs (orderedInsertGo x acc) (pairwise_orderedInsertGo x acc h)

/-- The insertion loop preserves the relative order of equal keys. -/
theorem foldl_insert_filter : ∀ (fs acc : List Field) (k : List Nat),
    acc.Pairwise (fun a b => bytesLt b.Key a.Key = false) →
    (fs.foldl (fun a x => orderedInsertGo x a) acc).filter (fun f => f.Key == k) =
      acc.filter (fun f => f.Key == k) ++ fs.filter (fun f => f.Key == k)
  | [], acc, k, _ => by simp
  | x :: fs, acc, k, h => by
    have ih := foldl_insert_filter fs (orderedInsertGo x acc) k
      (pairwise_orderedInsertGo x acc h)
    have hstep := filter_orderedInsertGo x acc k h
    by_cases hx : x.Key = k
    · simp only [List.foldl_cons, ih, hstep, if_pos (by simpa using hx)]
      simp [List.filter, show (x.Key == k) = true by simpa using hx]
    · simp only [List.foldl_cons, ih, hstep, if_neg (by simpa using hx)]
      simp [List.filter, show (x.Key == k) = false by simpa using hx]

/-- C7: `sortFields` returns a permutation of its input ordered
non-decreasingly by key; equal keys keep their relative input order (the
filter by any key is unchanged); and the spec's five-element example sorts to
exactly the listed table. -/
theorem sortFieldsSpec :
    (∀ fs : List Field, (sortFields fs).Perm fs) ∧
    (∀ fs : List Field,
        (sortFields fs).Pairwise fun a b => bytesLt b.Key a.Key = false) ∧
    (∀ (fs : List Field) (k : List Nat),
        (sortFields fs).filter (fun f => f.Key == k) =
          fs.filter (fun f => f.Key == k)) ∧
    sortFields [⟨[98], GoValue.vint 2⟩, ⟨[97], GoValue.vint 1⟩,
        ⟨[100], GoValue.vint 5⟩, ⟨[102], GoValue.vint 5⟩, ⟨[100], GoValue.vint 5⟩] =
      [⟨[97], GoValue.vint 1⟩, ⟨[98], GoValue.vint 2⟩, ⟨[100], GoValue.vint 5⟩,
        ⟨[100], GoValue.vint 5⟩, ⟨[102], GoValue.vint 5⟩] := by
  refine ⟨?_, ?_, ?_, by decide⟩
  · intro fs
    by_cases h : fs.length > 1
    · rw [sortFields, if_pos h]
      simpa using foldl_insert_perm fs []
    · rw [sortFields, if_neg h]
  · intro fs
    by_cases h : fs.length > 1
    · rw [sortFields, if_pos h]
      exact foldl_insert_pairwise fs [] (by simp)
    · rw [sortFields, if_neg h]
      rcases fs with _ | ⟨a, _ | ⟨b, t⟩⟩ <;> simp_all
  · intro fs k
    by_cases h : fs.length > 1
    · rw [sortFields, if_pos h]
      simpa using foldl_insert_filter fs [] k (by simp)
    · rw [sortFields, if_neg h]

/-! ## C6: console message padding -/

/-- C6 (counterexample): with minimum width 3 and the four-byte message
`abcd` — one byte over the width — `EncodeMessage` emits three trailing
spaces (one from the padding loop, two from the overflow branch), not the
claimed exactly two. -/
theorem consolePadding_over_by_one :
    consoleEncodeMessage ⟨3, false, false⟩ [97, 98, 99, 100] =
      [97, 98, 99, 100, 32, 32, 32] ∧
    ([97, 98, 99, 100] : List Nat).length > 3 ∧
    consoleEncodeMessage ⟨3, false, false⟩ [97, 98, 99, 100] ≠
      [97, 98, 99, 100, 32, 32] := by decide

/-- C6 (amended): with a configured width `W > 0`, `EncodeMessage` appends
`max 0 (W + 2 − len)` spaces plus two more when `len > W`.  Hence a message
of length exactly `W` is followed by exactly two spaces, one of length
`W − 1` is padded to total length `W + 2`, one of length `W + 1` by three
spaces, and one of length at least `W + 2` by exactly two; `EncodeFields`
prepends two further spaces of its own before the first field. -/
theorem consolePaddingSpec (e : ConsoleEncoder) (msg : List Nat)
    (hW : 0 < e.MinMessageWidth) :
    (msg.length = e.MinMessageWidth →
      consoleEncodeMessage e msg = consoleMsgHead e msg ++ [32, 32]) ∧
    (msg.length + 1 = e.MinMessageWidth →
      consoleEncodeMessage e msg = consoleMsgHead e msg ++ [32, 32, 32] ∧
      (e.Color = false →
        (consoleEncodeMessage e msg).length = e.MinMessageWidth + 2)) ∧
    (msg.length = e.MinMessageWidth + 1 →
      consoleEncodeMessage e msg = consoleMsgHead e msg ++ [32, 32, 32]) ∧
    (e.MinMessageWidth + 2 ≤ msg.length →
      consoleEncodeMessage e msg = consoleMsgHead e msg ++ [32, 32]) ∧
    (∀ (lev : Level) (fs : List Field), fs ≠ [] →
      (consoleEncodeFields e lev (some fs)).take 2 = [32, 32]) := by
  refine ⟨?_, ?_, ?_, ?_, ?_⟩
  · intro hm
    rw [consoleEncodeMessage, if_neg (by omega),
      show e.MinMessageWidth + 2 - msg.length = 2 by omega,
      if_neg (by omega)]
    simp [List.replicate]
  · intro hm
    have hout : consoleEncodeMessage e msg = consoleMsgHead e msg ++ [32, 32, 32] := by
      rw [consoleEncodeMessage, if_neg (by omega),
        show e.MinMessageWidth + 2 - msg.length = 3 by omega,
        if_neg (by omega)]
      simp [List.replicate]
    refine ⟨hout, ?_⟩
    intro hc
    rw [hout, consoleMsgHead, hc]
    simp
    omega
  · intro hm
    rw [consoleEncodeMessage, if_neg (by omega),
      show e.MinMessageWidth + 2 - msg.length = 1 by omega,
      if_pos (by omega)]
    simp [List.replicate]
  · intro hm
    rw [consoleEncodeMessage, if_neg (by omega),
      show e.MinMessageWidth + 2 - msg.length = 0 by omega,
      if_pos (by omega)]
    simp [List.replicate]
  · intro lev fs hfs
    simp only [consoleEncodeFields, if_neg hfs]
    rfl

/-- C6 (witness for the amended claim): a three-byte message at width 3 gets
exactly two trailing spaces. -/
theorem consolePaddingSpec_witness :
    consoleEncodeMessage ⟨3, false, false⟩ [97, 98, 99] =
      consoleMsgHead ⟨3, false, false⟩ [97, 98, 99] ++ [32, 32] :=
  (consolePaddingSpec ⟨3, false, false⟩ [97, 98, 99] (by decide)).1 (by decide)

/-! ## C2: JSON string escaping -/

/-- A safe byte is consumed by the validator as one unit. -/
theorem vsb_start_safe (b : Nat) (rest : List Nat) (h : safeByte b = true) :
    vsb .vstart (b :: rest) = vsb .vstart rest := by
  unfold safeByte at h
  rw [decide_eq_true_eq] at h
  rw [vsb, if_neg (by omega), if_pos (by omega)]

/-- A run of safe bytes is consumed by the validator unit by unit. -/
theorem vsb_start_allSafe (l rest : List Nat) (h : allSafe l = true) :
    vsb .vstart (l ++ rest) = vsb .vstart rest := by
  induction l with
  | nil => rfl
  | cons b bs ih =>
    unfold allSafe at h ih
    rw [List.all_cons, Bool.and_eq_true] at h
    rw [List.cons_append, vsb_start_safe _ _ h.1, ih h.2]

/-- The hex-digit table yields hex digits. -/
theorem isHex_hexDigit (n : Nat) (h : n < 16) : isHex (hexDigits.getD n 48) = true := by
  interval_cases n <;> decide

/-- A `\uXXXX` escape with four hex digits is consumed as one unit. -/
theorem vsb_start_escU (h1 h2 h3 h4 : Nat) (rest : List Nat)
    (hh1 : isHex h1 = true) (hh2 : isHex h2 = true) (hh3 : isHex h3 = true)
    (hh4 : isHex h4 = true) :
    vsb .vstart (92 :: 117 :: h1 :: h2 :: h3 :: h4 :: rest) = vsb .vstart rest := by
  rw [vsb, if_pos rfl, vsb, if_neg (by decide), if_pos rfl,
    vsb, if_pos hh1, if_neg (by omega), vsb, if_pos hh2, if_neg (by omega),
    vsb, if_pos hh3, if_neg (by omega), vsb, if_pos hh4, if_pos (by omega)]

/-- Every output of `writeEscapedASCII` is consumed as one unit. -/
theorem vsb_start_writeEscapedASCII (b : Nat) (rest : List Nat)
    (h : b < 0x20 ∨ b = 34 ∨ b = 92) :
    vsb .vstart (writeEscapedASCII b ++ rest) = vsb .vstart rest := by
  rcases h with h | h | h
  · have h34 : ¬ (b = 34 ∨ b = 92) := by omega
    rw [writeEscapedASCII, if_neg h34]
    interval_cases b <;> rfl
  · subst h
    rfl
  · subst h
    rfl

/-- The replacement escape is consumed as one unit. -/
theorem vsb_start_replacementEsc (rest : List Nat) :
    vsb .vstart (replacementEsc ++ rest) = vsb .vstart rest := rfl

/-- A well-formed two-byte UTF-8 sequence is consumed as one unit. -/
theorem vsb_start_two (b0 b1 : Nat) (rest : List Nat)
    (h0 : 0xC2 ≤ b0 ∧ b0 ≤ 0xDF) (h1 : 0x80 ≤ b1 ∧ b1 ≤ 0xBF) :
    vsb .vstart (b0 :: b1 :: rest) = vsb .vstart rest := by
  rw [vsb, if_neg (by omega), if_neg (by omega), if_pos (by omega),
    vsb, if_pos (by omega), if_pos (by omega)]

/-- A well-formed three-byte UTF-8 sequence is consumed as one unit. -/
theorem vsb_start_three (b0 b1 b2 : Nat) (rest : List Nat)
    (h0 : 0xE0 ≤ b0 ∧ b0 ≤ 0xEF)
    (h1 : (if b0 = 0xE0 then 0xA0 else 0x80) ≤ b1 ∧
          b1 ≤ (if b0 = 0xED then 0x9F else 0xBF))
    (h2 : 0x80 ≤ b2 ∧ b2 ≤ 0xBF) :
    vsb .vstart (b0 :: b1 :: b2 :: rest) = vsb .vstart rest := by
  rw [vsb, if_neg (by omega), if_neg (by omega), if_neg (by omega),
    if_pos (by omega), vsb, if_pos h1, if_neg (by omega),
    vsb, if_pos (by omega), if_pos (by omega)]

/-- A well-formed four-byte UTF-8 sequence is consumed as one unit. -/
theorem vsb_start_four (b0 b1 b2 b3 : Nat) (rest : List Nat)
    (h0 : 0xF0 ≤ b0 ∧ b0 ≤ 0xF4)
    (h1 : (if b0 = 0xF0 then 0x90 else 0x80) ≤ b1 ∧
          b1 ≤ (if b0 = 0xF4 then 0x8F else 0xBF))
    (h2 : 0x80 ≤ b2 ∧ b2 ≤ 0xBF) (h3 : 0x80 ≤ b3 ∧ b3 ≤ 0xBF) :
    vsb .vstart (b0 :: b1 :: b2 :: b3 :: rest) = vsb .vstart rest := by
  rw [vsb, if_neg (by omega), if_neg (by omega), if_neg (by omega),
    if_neg (by omega), if_pos (by omega), vsb, if_pos h1, if_neg (by omega),
    vsb, if_pos (by omega), if_neg (by omega),
    vsb, if_pos (by omega), if_pos (by omega)]

/-- Inversion of a successful multi-byte decode: the size is the number of
bytes consumed, re-encoding the rune reproduces exactly those bytes, and the
consumed bytes form one valid string-body unit. -/
theorem decodeRune_valid (b : Nat) (bs : List Nat) (r n : Nat)
    (hb : 0x80 ≤ b) (hd : decodeRune (b :: bs) = (r, n))
    (hv : ¬(r = 0xFFFD ∧ n = 1)) :
    2 ≤ n ∧ n ≤ bs.length + 1 ∧ encodeRune r = (b :: bs).take n ∧
    (∀ rest, vsb .vstart ((b :: bs).take n ++ rest) = vsb .vstart rest) := by
  rcases bs with _ | ⟨b1, _ | ⟨b2, _ | ⟨b3, bs3⟩⟩⟩
  · simp only [decodeRune] at hd
    rw [if_neg (by omega)] at hd
    split_ifs at hd <;>
      (rw [Prod.mk.injEq] at hd; exact absurd ⟨hd.1.symm, hd.2.symm⟩ hv)
  · simp only [decodeRune] at hd
    rw [if_neg (by omega)] at hd
    by_cases h2 : 0xC2 ≤ b ∧ b ≤ 0xDF
    · rw [if_pos h2] at hd
      by_cases hc : 0x80 ≤ b1 ∧ b1 ≤ 0xBF
      · rw [if_pos hc, Prod.mk.injEq] at hd
        obtain ⟨hr, hn⟩ := hd
        subst hr hn
        refine ⟨by omega, by simp, ?_, ?_⟩
        · rw [encodeRune, if_neg (by omega), if_pos (by omega)]
          rw [show ([b, b1] : List Nat).take 2 = [b, b1] from rfl]
          rw [show 0xC0 + ((b - 0xC0) * 64 + (b1 - 0x80)) / 64 = b by omega,
            show 0x80 + ((b - 0xC0) * 64 + (b1 - 0x80)) % 64 = b1 by omega]
        · intro rest
          rw [show ([b, b1] : List Nat).take 2 = [b, b1] from rfl]
          exact vsb_start_two b b1 rest (by omega) (by omega)
      · rw [if_neg hc, Prod.mk.injEq] at hd
        exact absurd ⟨hd.1.symm, hd.2.symm⟩ hv
    · rw [if_neg h2] at hd
      split_ifs at hd <;>
        (rw [Prod.mk.injEq] at hd; exact absurd ⟨hd.1.symm, hd.2.symm⟩ hv)
  · simp only [decodeRune] at hd
    rw [if_neg (by omega)] at hd
    by_cases h2 : 0xC2 ≤ b ∧ b ≤ 0xDF
    · rw [if_pos h2] at hd
      by_cases hc : 0x80 ≤ b1 ∧ b1 ≤ 0xBF
      · rw [if_pos hc, Prod.mk.injEq] at hd
        obtain ⟨hr, hn⟩ := hd
        subst hr hn
        refine ⟨by omega, by simp, ?_, ?_⟩
        · rw [encodeRune, if_neg (by omega), if_pos (by omega)]
          rw [show ([b, b1, b2] : List Nat).take 2 = [b, b1] from rfl]
          rw [show 0xC0 + ((b - 0xC0) * 64 + (b1 - 0x80)) / 64 = b by omega,
            show 0x80 + ((b - 0xC0) * 64 + (b1 - 0x80)) % 64 = b1 by omega]
        · intro rest
          rw [show ([b, b1, b2] : List Nat).take 2 = [b, b1] from rfl]
          exact vsb_start_two b b1 rest (by omega) (by omega)
      · rw [if_neg hc, Prod.mk.injEq] at hd
        exact absurd ⟨hd.1.symm, hd.2.symm⟩ hv
    · rw [if_neg h2] at hd
      by_cases h3 : 0xE0 ≤ b ∧ b ≤ 0xEF
      · rw [if_pos h3] at hd
        by_cases hc : (if b = 0xE0 then 0xA0 else 0x80) ≤ b1 ∧
            b1 ≤ (if b = 0xED then 0x9F else 0xBF) ∧ 0x80 ≤ b2 ∧ b2 ≤ 0xBF
        · rw [if_pos hc, Prod.mk.injEq] at hd
          obtain ⟨hr, hn⟩ := hd
          subst hr hn
          have hlo : 0xA0 ≤ b1 ∨ (b ≠ 0xE0 ∧ 0x80 ≤ b1) := by
            by_cases hE : b = 0xE0
            · left; have := hc.1; rwa [if_pos hE] at this
            · right; have := hc.1; rw [if_neg hE] at this; exact ⟨hE, this⟩
          have hhi : b1 ≤ 0x9F ∨ (b ≠ 0xED ∧ b1 ≤ 0xBF) := by
            by_cases hE : b = 0xED
            · left; have := hc.2.1; rwa [if_pos hE] at this
            · right; have := hc.2.1; rw [if_neg hE] at this; exact ⟨hE, this⟩
          refine ⟨by omega, by simp, ?_, ?_⟩
          · rw [encodeRune, if_neg (by omega), if_neg (by omega),
              if_neg (by omega), if_pos (by omega)]
            rw [show ([b, b1, b2] : List Nat).take 3 = [b, b1, b2] from rfl]
            rw [show 0xE0 + ((b - 0xE0) * 4096 + (b1 - 0x80) * 64 + (b2 - 0x80)) / 4096
                  = b by omega,
              show 0x80 + ((b - 0xE0) * 4096 + (b1 - 0x80) * 64 + (b2 - 0x80)) / 64 % 64
                  = b1 by omega,
              show 0x80 + ((b - 0xE0) * 4096 + (b1 - 0x80) * 64 + (b2 - 0x80)) % 64
                  = b2 by omega]
          · intro rest
            rw [show ([b, b1, b2] : List Nat).take 3 = [b, b1, b2] from rfl]
            exact vsb_start_three b b1 b2 rest (by omega) ⟨hc.1, hc.2.1⟩
              ⟨hc.2.2.1, hc.2.2.2⟩
        · rw [if_neg hc, Prod.mk.injEq] at hd
          exact absurd ⟨hd.1.symm, hd.2.symm⟩ hv
      · rw [if_neg h3] at hd
        split_ifs at hd <;>
          (rw [Prod.mk.injEq] at hd; exact absurd ⟨hd.1.symm, hd.2.symm⟩ hv)
  · simp only [decodeRune] at hd
    rw [if_neg (by omega)] at hd
    by_cases h2 : 0xC2 ≤ b ∧ b ≤ 0xDF
    · rw [if_pos h2] at hd
      by_cases hc : 0x80 ≤ b1 ∧ b1 ≤ 0xBF
      · rw [if_pos hc, Prod.mk.injEq] at hd
        obtain ⟨hr, hn⟩ := hd
        subst hr hn
        refine ⟨by omega, by simp, ?_, ?_⟩
        · rw [encodeRune, if_neg (by omega), if_pos (by omega)]
          rw [show ((b :: b1 :: b2 :: b3 :: bs3) : List Nat).take 2 = [b, b1] from rfl]
          rw [show 0xC0 + ((b - 0xC0) * 64 + (b1 - 0x80)) / 64 = b by omega,
            show 0x80 + ((b - 0xC0) * 64 + (b1 - 0x80)) % 64 = b1 by omega]
        · intro rest
          rw [show ((b :: b1 :: b2 :: b3 :: bs3) : List Nat).take 2 = [b, b1] from rfl]
          exact vsb_start_two b b1 rest (by omega) (by omega)
      · rw [if_neg hc, Prod.mk.injEq] at hd
        exact absurd ⟨hd.1.symm, hd.2.symm⟩ hv
    · rw [if_neg h2] at hd
      by_cases h3 : 0xE0 ≤ b ∧ b ≤ 0xEF
      · rw [if_pos h3] at hd
        by_cases hc : (if b = 0xE0 then 0xA0 else 0x80) ≤ b1 ∧
            b1 ≤ (if b = 0xED then 0x9F else 0xBF) ∧ 0x80 ≤ b2 ∧ b2 ≤ 0xBF
        · rw [if_pos hc, Prod.mk.injEq] at hd
          obtain ⟨hr, hn⟩ := hd
          subst hr hn
          have hlo : 0xA0 ≤ b1 ∨ (b ≠ 0xE0 ∧ 0x80 ≤ b1) := by
            by_cases hE : b = 0xE0
            · left; have := hc.1; rwa [if_pos hE] at this
            · right; have := hc.1; rw [if_neg hE] at this; exact ⟨hE, this⟩
          have hhi : b1 ≤ 0x9F ∨ (b ≠ 0xED ∧ b1 ≤ 0xBF) := by
            by_cases hE : b = 0xED
            · left; have := hc.2.1; rwa [if_pos hE] at this
            · right; have := hc.2.1; rw [if_neg hE] at this; exact ⟨hE, this⟩
          refine ⟨by omega, by simp, ?_, ?_⟩
          · rw [encodeRune, if_neg (by omega), if_neg (by omega),
              if_neg (by omega), if_pos (by omega)]
            rw [show ((b :: b1 :: b2 :: b3 :: bs3) : List Nat).take 3 = [b, b1, b2]
                from rfl]
            rw [show 0xE0 + ((b - 0xE0) * 4096 + (b1 - 0x80) * 64 + (b2 - 0x80)) / 4096
                  = b by omega,
              show 0x80 + ((b - 0xE0) * 4096 + (b1 - 0x80) * 64 + (b2 - 0x80)) / 64 % 64
                  = b1 by omega,
              show 0x80 + ((b - 0xE0) * 4096 + (b1 - 0x80) * 64 + (b2 - 0x80)) % 64
                  = b2 by omega]
          · intro rest
            rw [show ((b :: b1 :: b2 :: b3 :: bs3) : List Nat).take 3 = [b, b1, b2]
                from rfl]
            exact vsb_start_three b b1 b2 rest (by omega) ⟨hc.1, hc.2.1⟩
              ⟨hc.2.2.1, hc.2.2.2⟩
        · rw [if_neg hc, Prod.mk.injEq] at hd
          exact absurd ⟨hd.1.symm, hd.2.symm⟩ hv
      · rw [if_neg h3] at hd
        by_cases h4 : 0xF0 ≤ b ∧ b ≤ 0xF4
        · rw [if_pos h4] at hd
          by_cases hc : (if b = 0xF0 then 0x90 else 0x80) ≤ b1 ∧
              b1 ≤ (if b = 0xF4 then 0x8F else 0xBF) ∧ 0x80 ≤ b2 ∧ b2 ≤ 0xBF ∧
              0x80 ≤ b3 ∧ b3 ≤ 0xBF
          · rw [if_pos hc, Prod.mk.injEq] at hd
            obtain ⟨hr, hn⟩ := hd
            subst hr hn
            have hlo : 0x90 ≤ b1 ∨ (b ≠ 0xF0 ∧ 0x80 ≤ b1) := by
              by_cases hE : b = 0xF0
              · left; have := hc.1; rwa [if_pos hE] at this
              · right; have := hc.1; rw [if_neg hE] at this; exact ⟨hE, this⟩
            have hhi : b1 ≤ 0x8F ∨ (b ≠ 0xF4 ∧ b1 ≤ 0xBF) := by
              by_cases hE : b = 0xF4
              · left; have := hc.2.1; rwa [if_pos hE] at this
              · right; have := hc.2.1; rw [if_neg hE] at this; exact ⟨hE, this⟩
            refine ⟨by omega, by simp, ?_, ?_⟩
            · rw [encodeRune, if_neg (by omega), if_neg (by omega),
                if_neg (by omega), if_neg (by omega), if_pos (by omega)]
              rw [show ((b :: b1 :: b2 :: b3 :: bs3) : List Nat).take 4 =
                  [b, b1, b2, b3] from rfl]
              rw [show 0xF0 + ((b - 0xF0) * 262144 + (b1 - 0x80) * 4096 +
                    (b2 - 0x80) * 64 + (b3 - 0x80)) / 262144 = b by omega,
                show 0x80 + ((b - 0xF0) * 262144 + (b1 - 0x80) * 4096 +
                    (b2 - 0x80) * 64 + (b3 - 0x80)) / 4096 % 64 = b1 by omega,
                show 0x80 + ((b - 0xF0) * 262144 + (b1 - 0x80) * 4096 +
                    (b2 - 0x80) * 64 + (b3 - 0x80)) / 64 % 64 = b2 by omega,
                show 0x80 + ((b - 0xF0) * 262144 + (b1 - 0x80) * 4096 +
                    (b2 - 0x80) * 64 + (b3 - 0x80)) % 64 = b3 by omega]
            · intro rest
              rw [show ((b :: b1 :: b2 :: b3 :: bs3) : List Nat).take 4 =
                  [b, b1, b2, b3] from rfl]
              exact vsb_start_four b b1 b2 b3 rest (by omega) ⟨hc.1, hc.2.1⟩
                ⟨hc.2.2.1, hc.2.2.2.1⟩ ⟨hc.2.2.2.2.1, hc.2.2.2.2.2⟩
          · rw [if_neg hc, Prod.mk.injEq] at hd
            exact absurd ⟨hd.1.symm, hd.2.symm⟩ hv
        · rw [if_neg h4, Prod.mk.injEq] at hd
          exact absurd ⟨hd.1.symm, hd.2.symm⟩ hv

/-- Unfolding of the scan loop at a byte that is escaped as ASCII. -/
theorem escLoop_ascii_step (b : Nat) (rest pending acc : List Nat)
    (h1 : b < 0x20 ∨ b = 34 ∨ b = 92) :
    escLoop pending (b :: rest) acc =
      escLoop [] rest
        ((if pending ≠ [] then acc ++ pending else acc) ++ writeEscapedASCII b) := by
  rw [escLoop, if_pos h1]

/-- Unfolding of the scan loop at a byte that starts a UTF-8 decode. -/
theorem escLoop_utf8_step (b : Nat) (rest pending acc : List Nat)
    (h1 : ¬(b < 0x20 ∨ b = 34 ∨ b = 92)) (h2 : 0x80 ≤ b) :
    escLoop pending (b :: rest) acc =
      escLoop [] (rest.drop ((writeEscapedUTF8 (b :: rest)).2 - 1))
        ((if pending ≠ [] then acc ++ pending else acc) ++
          (writeEscapedUTF8 (b :: rest)).1) := by
  rw [escLoop, if_neg h1, if_pos h2]

/-- Unfolding of the scan loop at a plain byte (it joins the pending run). -/
theorem escLoop_raw_step (b : Nat) (rest pending acc : List Nat)
    (h1 : ¬(b < 0x20 ∨ b = 34 ∨ b = 92)) (h2 : ¬ 0x80 ≤ b) :
    escLoop pending (b :: rest) acc = escLoop (pending ++ [b]) rest acc := by
  rw [escLoop, if_neg h1, if_neg h2]

/-- Unfolding of the per-unit restatement at a UTF-8 start byte. -/
theorem escapeSpec_utf8_step (b : Nat) (rest : List Nat)
    (h1 : ¬(b < 0x20 ∨ b = 34 ∨ b = 92)) (h2 : 0x80 ≤ b) :
    escapeSpec (b :: rest) =
      (writeEscapedUTF8 (b :: rest)).1 ++
        escapeSpec (rest.drop ((writeEscapedUTF8 (b :: rest)).2 - 1)) := by
  rw [escapeSpec, if_neg h1, if_pos h2]

/-- The bulk-copying scan loop produces exactly the per-unit escape of its
unread suffix, appended after its accumulator and pending run. -/
theorem escLoop_eq : ∀ (rem pending acc : List Nat),
    escLoop pending rem acc = (acc ++ pending) ++ escapeSpec rem
  | [], pending, acc => by
    by_cases hp : pending = [] <;> simp [escLoop, escapeSpec, hp]
  | b :: rest, pending, acc => by
    by_cases h1 : b < 0x20 ∨ b = 34 ∨ b = 92
    · rw [escLoop_ascii_step b rest pending acc h1, escLoop_eq rest,
        escapeSpec, if_pos h1]
      by_cases hp : pending = [] <;> simp [hp]
    · by_cases h2 : 0x80 ≤ b
      · rw [escLoop_utf8_step b rest pending acc h1 h2,
          escLoop_eq (rest.drop ((writeEscapedUTF8 (b :: rest)).2 - 1)),
          escapeSpec_utf8_step b rest h1 h2]
        by_cases hp : pending = [] <;> simp [hp]
      · rw [escLoop_raw_step b rest pending acc h1 h2, escLoop_eq rest,
          escapeSpec, if_neg h1, if_neg h2]
        simp
termination_by rem _ _ => rem.length
decreasing_by
  all_goals simp only [List.length_cons, List.length_drop]
  all_goals omega

/-- The source escaper equals the quote-wrapped per-unit escape. -/
theorem writeEscapedString_eq (s : List Nat) :
    writeEscapedString s = [34] ++ escapeSpec s ++ [34] := by
  rw [writeEscapedString, escLoop_eq]
  simp

/-- Every unit that the escaper emits is accepted by the string-body
validator, so the whole escaped output is a valid string body. -/
theorem escapeSpec_units : ∀ (l rest : List Nat),
    vsb .vstart (escapeSpec l ++ rest) = vsb .vstart rest
  | [], rest => by
    rw [escapeSpec]
    rfl
  | b :: l, rest => by
    by_cases h1 : b < 0x20 ∨ b = 34 ∨ b = 92
    · rw [escapeSpec, if_pos h1, List.append_assoc,
        vsb_start_writeEscapedASCII b _ h1, escapeSpec_units l rest]
    · by_cases h2 : 0x80 ≤ b
      · rw [escapeSpec_utf8_step b l h1 h2]
        by_cases hinv : (decodeRune (b :: l)).1 = 0xFFFD ∧ (decodeRune (b :: l)).2 = 1
        · have hws : writeEscapedUTF8 (b :: l) = (replacementEsc, 1) := by
            unfold writeEscapedUTF8
            rw [if_pos hinv]
          rw [hws]
          simp only [List.drop_zero, Nat.sub_self]
          rw [List.append_assoc, vsb_start_replacementEsc, escapeSpec_units l rest]
        · have hws : writeEscapedUTF8 (b :: l) =
              (encodeRune (decodeRune (b :: l)).1, (decodeRune (b :: l)).2) := by
            unfold writeEscapedUTF8
            rw [if_neg hinv]
          obtain ⟨hn2, hnle, henc, hunit⟩ :=
            decodeRune_valid b l (decodeRune (b :: l)).1 (decodeRune (b :: l)).2 h2
              rfl hinv
          rw [hws, henc]
          have htake : ((b :: l).take (decodeRune (b :: l)).2) ++
              (escapeSpec (l.drop ((decodeRune (b :: l)).2 - 1)) ++ rest) =
              (b :: l).take (decodeRune (b :: l)).2 ++
                escapeSpec (l.drop ((decodeRune (b :: l)).2 - 1)) ++ rest := by
            simp [List.append_assoc]
          rw [← htake, hunit, escapeSpec_units (l.drop ((decodeRune (b :: l)).2 - 1))]
      · rw [escapeSpec, if_neg h1, if_neg h2, List.cons_append,
          vsb_start_safe b _ (by unfold safeByte; rw [decide_eq_true_eq]; omega),
          escapeSpec_units l rest]
termination_by l _ => l.length
decreasing_by
  all_goals simp only [List.length_cons, List.length_drop]
  all_goals omega

/-- C2: the escaper always yields a valid JSON string — the scan (with its
bulk copies) equals the per-unit escape wrapped in quotes, the escaped body
passes the string-body validator for every input byte sequence, bytes below
0x20 and quote and backslash are escaped individually via `writeEscapedASCII`
(short escapes or `\u00XX`), other ASCII bytes pass through, a byte at or
above 0x80 whose decode fails yields the replacement escape advancing
exactly one byte, and a successful decode copies exactly the decoded bytes
through unchanged. -/
theorem escapingSpec :
    (∀ s : List Nat, writeEscapedString s = [34] ++ escapeSpec s ++ [34]) ∧
    (∀ s : List Nat, validStrBody (escapeSpec s) = true) ∧
    (∀ (b : Nat) (rest : List Nat), b < 0x20 ∨ b = 34 ∨ b = 92 →
        escapeSpec (b :: rest) = writeEscapedASCII b ++ escapeSpec rest) ∧
    (∀ (b : Nat) (rest : List Nat), ¬(b < 0x20 ∨ b = 34 ∨ b = 92) → ¬ 0x80 ≤ b →
        escapeSpec (b :: rest) = b :: escapeSpec rest) ∧
    (∀ (b : Nat) (rest : List Nat), 0x80 ≤ b →
        decodeRune (b :: rest) = (0xFFFD, 1) →
        escapeSpec (b :: rest) = replacementEsc ++ escapeSpec rest) ∧
    (∀ (b : Nat) (rest : List Nat) (r n : Nat), 0x80 ≤ b →
        decodeRune (b :: rest) = (r, n) → ¬(r = 0xFFFD ∧ n = 1) →
        escapeSpec (b :: rest) =
          (b :: rest).take n ++ escapeSpec ((b :: rest).drop n)) := by
  refine ⟨writeEscapedString_eq, ?_, ?_, ?_, ?_, ?_⟩
  · intro s
    have h := escapeSpec_units s []
    rw [List.append_nil] at h
    exact h
  · intro b rest h1
    rw [escapeSpec, if_pos h1]
  · intro b rest h1 h2
    rw [escapeSpec, if_neg h1, if_neg h2]
  · intro b rest hb hd
    rw [escapeSpec_utf8_step b rest (by omega) hb]
    have hws : writeEscapedUTF8 (b :: rest) = (replacementEsc, 1) := by
      unfold writeEscapedUTF8
      rw [hd]
      rfl
    rw [hws]
    simp
  · intro b rest r n hb hd hv
    rw [escapeSpec_utf8_step b rest (by omega) hb]
    have hws : writeEscapedUTF8 (b :: rest) = (encodeRune r, n) := by
      unfold writeEscapedUTF8
      rw [hd, if_neg hv]
    obtain ⟨hn2, hnle, henc, hunit⟩ := decodeRune_valid b rest r n hb hd hv
    rw [hws, henc]
    have hdrop : rest.drop (n - 1) = (b :: rest).drop n := by
      rw [show n = (n - 1) + 1 by omega, List.drop_succ_cons]
      simp
    rw [hdrop]

/-- C2 (witness): a newline gets its short escape, a plain byte passes
through, a lone continuation byte becomes the replacement escape advancing
one byte, and the two-byte sequence `0xC3 0xA9` (é) decodes and is copied
through as its own two bytes. -/
theorem escapingSpec_witness :
    escapeSpec [10] = writeEscapedASCII 10 ++ escapeSpec [] ∧
    escapeSpec [104] = 104 :: escapeSpec [] ∧
    escapeSpec [0x80] = replacementEsc ++ escapeSpec [] ∧
    escapeSpec [0xC3, 0xA9] =
      ([0xC3, 0xA9] : List Nat).take 2 ++ escapeSpec (([0xC3, 0xA9] : List Nat).drop 2) :=
  ⟨escapingSpec.2.2.1 10 [] (by decide),
   escapingSpec.2.2.2.1 104 [] (by decide) (by decide),
   escapingSpec.2.2.2.2.1 0x80 [] (by decide) (by decide),
   escapingSpec.2.2.2.2.2 0xC3 [0xA9] 233 2 (by decide) (by decide) (by decide)⟩

/-! ## C3: the JSON record parses as a JSON object -/

/-- The escaped body of any byte sequence is a valid JSON string body. -/
theorem escapeSpec_validBody (s : List Nat) : validStrBody (escapeSpec s) = true := by
  have h := escapeSpec_units s []
  rwa [List.append_nil] at h

/-- Decimal digits of a natural number are all digit bytes. -/
theorem natToDec_all_digits (n : Nat) : (natToDec n).all isDigit = true := by
  rw [natToDec]
  split
  · next h =>
    simp only [List.all_cons, List.all_nil, Bool.and_true]
    unfold isDigit
    rw [decide_eq_true_eq]
    omega
  · next h =>
    rw [List.all_append, natToDec_all_digits (n / 10)]
    simp only [List.all_cons, List.all_nil, Bool.and_true, Bool.true_and]
    unfold isDigit
    rw [decide_eq_true_eq]
    omega
termination_by n
decreasing_by omega

/-- A positive number's decimal rendering starts with a non-zero digit. -/
theorem natToDec_head_pos (n : Nat) (h : 0 < n) :
    ∃ d ds, natToDec n = d :: ds ∧ 49 ≤ d ∧ d ≤ 57 := by
  rw [natToDec]
  split
  · exact ⟨48 + n, [], rfl, by omega, by omega⟩
  · next hn =>
    obtain ⟨d, ds, hd, h1, h2⟩ := natToDec_head_pos (n / 10) (by omega)
    exact ⟨d, ds ++ [48 + n % 10], by rw [hd]; rfl, h1, h2⟩
termination_by n
decreasing_by omega

/-- A digit run starting with a non-zero digit passes the numeral check. -/
theorem jsonDigits_of_head (d : Nat) (ds : List Nat) (h1 : 49 ≤ d) (h2 : d ≤ 57)
    (hall : (d :: ds).all isDigit = true) : jsonDigits (d :: ds) = true := by
  unfold jsonDigits
  rw [Bool.and_eq_true, Bool.and_eq_true, Bool.or_eq_true]
  refine ⟨⟨by simp, hall⟩, Or.inl ?_⟩
  rw [decide_eq_true_eq]
  simp only [List.head?_cons, ne_eq, Option.some.injEq]
  omega

/-- Unsigned decimal renderings are JSON integer numerals. -/
theorem isJsonInt_natToDec (n : Nat) : isJsonInt (natToDec n) = true := by
  rcases Nat.eq_zero_or_pos n with rfl | hp
  · have h0 : natToDec 0 = [48] := by
      rw [natToDec]
      rfl
    rw [h0]
    decide
  · obtain ⟨d, ds, hd, h1, h2⟩ := natToDec_head_pos n hp
    have hds := natToDec_all_digits n
    rw [hd] at hds ⊢
    rw [isJsonInt, if_neg (by omega)]
    exact jsonDigits_of_head d ds h1 h2 hds

/-- Signed decimal renderings are JSON integer numerals. -/
theorem isJsonInt_intToDec (i : Int) : isJsonInt (intToDec i) = true := by
  rw [intToDec]
  split
  · next h =>
    rw [isJsonInt, if_pos rfl]
    obtain ⟨d, ds, hd, h1, h2⟩ := natToDec_head_pos i.natAbs (by omega)
    have hds := natToDec_all_digits i.natAbs
    rw [hd] at hds ⊢
    exact jsonDigits_of_head d ds h1 h2 hds
  · exact isJsonInt_natToDec i.natAbs

/-- Every byte of the base64 alphabet (and the padding byte) is safe. -/
theorem safeByte_b64char (i : Nat) : safeByte (b64char i) = true := by
  unfold b64char
  rcases Nat.lt_or_ge i b64alphabet.length with h | h
  · rw [List.getD_eq_getElem?_getD, List.getElem?_eq_getElem h]
    have hall : b64alphabet.all safeByte = true := by decide
    exact List.all_eq_true.mp hall _ (List.getElem_mem h)
  · rw [List.getD_eq_getElem?_getD, List.getElem?_eq_none (by omega)]
    decide

/-- Base64 output is entirely safe bytes. -/
theorem allSafe_base64Encode : ∀ b : List Nat, allSafe (base64Encode b) = true
  | [] => by decide
  | [a] => by
    unfold allSafe
    simp [base64Encode, safeByte_b64char]
    decide
  | [a, b] => by
    unfold allSafe
    simp [base64Encode, safeByte_b64char]
    decide
  | a :: b :: c :: rest => by
    have ih := allSafe_base64Encode rest
    unfold allSafe at ih ⊢
    simp [base64Encode, safeByte_b64char, ih]

/-- Level labels are safe bytes. -/
theorem allSafe_levelString (lev : Level) : allSafe (levelString lev) = true := by
  cases lev <;> decide

/-- A run of safe bytes is a valid string body. -/
theorem validStrBody_of_allSafe (l : List Nat) (h : allSafe l = true) :
    validStrBody l = true := by
  have hv := vsb_start_allSafe l [] h
  rwa [List.append_nil] at hv

/-- Every value the JSON serializer emits derives the JSON value grammar. -/
theorem jsonValue_writeAny (v : GoValue) : JsonValue (jsonWriteAny v) := by
  cases v with
  | vstr s =>
    show JsonValue (writeEscapedString s)
    rw [writeEscapedString_eq s]
    exact JsonValue.str (escapeSpec_validBody s)
  | vbytes b =>
    exact JsonValue.str (validStrBody_of_allSafe _ (allSafe_base64Encode b))
  | vnull => exact JsonValue.nullLit
  | vbool b =>
    cases b
    · exact JsonValue.falseLit
    · exact JsonValue.trueLit
  | vint i => exact JsonValue.num (isJsonInt_intToDec i)
  | vuint n => exact JsonValue.num (isJsonInt_natToDec n)

/-- A flattened run of comma-prefixed members equals a comma followed by the
member concatenation. -/
theorem flatten_comma_members : ∀ (qs : List (List Nat × List Nat)), qs ≠ [] →
    (qs.map fun p => 44 :: (strTok p.1 ++ 58 :: p.2)).flatten = 44 :: memberConcat qs
  | [], h => absurd rfl h
  | [(k, v)], _ => by simp [memberConcat, strTok]
  | (k, v) :: q :: qs, _ => by
    have ih := flatten_comma_members (q :: qs) (by simp)
    simp only [List.map_cons, List.flatten_cons] at ih ⊢
    rw [ih]
    simp [memberConcat, List.append_assoc]

/-- Member concatenation splits over an append with a separating comma. -/
theorem memberConcat_append : ∀ (ps qs : List (List Nat × List Nat)), ps ≠ [] →
    qs ≠ [] → memberConcat (ps ++ qs) = memberConcat ps ++ 44 :: memberConcat qs
  | [], _, h, _ => absurd rfl h
  | [(k, v)], qs, _, hq => by
    rcases qs with _ | ⟨⟨k2, v2⟩, qs'⟩
    · exact absurd rfl hq
    · simp [memberConcat, List.append_assoc]
  | (k, v) :: p2 :: ps', qs, _, hq => by
    have ih := memberConcat_append (p2 :: ps') qs (by simp) hq
    simp only [List.cons_append] at ih ⊢
    simp [memberConcat, ih, List.append_assoc]

/-- A non-empty list of valid key/value pairs derives the JSON `members`
production. -/
theorem jsonMembers_memberConcat : ∀ ps : List (List Nat × List Nat), ps ≠ [] →
    (∀ p ∈ ps, validStrBody p.1 = true ∧ JsonValue p.2) →
    JsonMembers (memberConcat ps)
  | [], h, _ => absurd rfl h
  | [(k, v)], _, hv => by
    have h := hv (k, v) (by simp)
    exact JsonMembers.last h.1 h.2
  | (k, v) :: q :: ps', _, hv => by
    have h := hv (k, v) (by simp)
    have ih := jsonMembers_memberConcat (q :: ps') (by simp)
      fun r hr => hv r (by simp [List.mem_cons.mpr (Or.inr hr)])
    exact JsonMembers.cons h.1 h.2 ih

/-- The field callback's bytes are a comma-prefixed member concatenation. -/
theorem jsonEncodeFields_cons (f : Field) (fs : List Field) :
    jsonEncodeFields (some (f :: fs)) =
      44 :: memberConcat ((f :: fs).map fun g => (escapeSpec g.Key, jsonWriteAny g.Value)) := by
  simp only [jsonEncodeFields]
  rw [if_neg (by simp), ← flatten_comma_members _ (by simp), List.map_map]
  refine congrArg List.flatten (List.map_congr_left ?_)
  intro g _
  simp [writeEscapedString_eq, strTok, Function.comp, List.append_assoc]

/-- The full JSON callback sequence produces an opening brace, the member
concatenation of the record's key/value pairs, a closing brace and a
newline. -/
theorem jsonRecord_members (tf ts : List Nat) (lev : Level) (msg : List Nat)
    (fields : Option (List Field)) (stack : Option (List Nat)) :
    jsonRecord tf ts lev msg fields stack =
      123 :: (memberConcat (recordPairs tf ts lev msg fields stack) ++ [125, 10]) := by
  rcases fields with _ | ⟨_ | ⟨f, fs⟩⟩
  · rcases stack with _ | st <;> by_cases htf : tf = [] <;>
      simp [jsonRecord, jsonStart, jsonEncodeTime, jsonEncodeLevel, jsonEncodeMessage,
        jsonEncodeFields, jsonEncodeStackTrace, jsonEnd, writeSafeField, recordPairs,
        memberConcat, strTok, htf, List.append_assoc]
  · rcases stack with _ | st <;> by_cases htf : tf = [] <;>
      simp [jsonRecord, jsonStart, jsonEncodeTime, jsonEncodeLevel, jsonEncodeMessage,
        jsonEncodeFields, jsonEncodeStackTrace, jsonEnd, writeSafeField, recordPairs,
        memberConcat, strTok, htf, List.append_assoc]
  · rcases stack with _ | st
    · by_cases htf : tf = [] <;>
        rw [jsonRecord, jsonEncodeFields_cons f fs] <;>
        simp [jsonStart, jsonEncodeTime, jsonEncodeLevel, jsonEncodeMessage,
          jsonEncodeStackTrace, jsonEnd, writeSafeField, recordPairs, memberConcat,
          strTok, htf, List.append_assoc]
    · by_cases htf : tf = []
      · rw [jsonRecord, jsonEncodeFields_cons f fs,
          show recordPairs tf ts lev msg (some (f :: fs)) (some st) =
            ([(keyLevelD, 34 :: levelString lev ++ [34]),
              (keyMsgD, writeEscapedString msg)] : List (List Nat × List Nat)) ++
              (((f :: fs).map fun g => (escapeSpec g.Key, jsonWriteAny g.Value)) ++
                [(keyStackD, writeEscapedString st)]) from by
            simp [recordPairs, htf],
          memberConcat_append _ _ (by simp) (by simp),
          memberConcat_append ((f :: fs).map fun g =>
            (escapeSpec g.Key, jsonWriteAny g.Value)) _ (by simp) (by simp)]
        simp [jsonStart, jsonEncodeTime, jsonEncodeLevel, jsonEncodeMessage,
          jsonEncodeStackTrace, jsonEnd, writeSafeField, memberConcat, strTok, htf,
          List.append_assoc]
      · rw [jsonRecord, jsonEncodeFields_cons f fs,
          show recordPairs tf ts lev msg (some (f :: fs)) (some st) =
            ([(keyTimeD, 34 :: ts ++ [34]),
              (keyLevelD, 34 :: levelString lev ++ [34]),
              (keyMsgD, writeEscapedString msg)] : List (List Nat × List Nat)) ++
              (((f :: fs).map fun g => (escapeSpec g.Key, jsonWriteAny g.Value)) ++
                [(keyStackD, writeEscapedString st)]) from by
            simp [recordPairs, htf],
          memberConcat_append _ _ (by simp) (by simp),
          memberConcat_append ((f :: fs).map fun g =>
            (escapeSpec g.Key, jsonWriteAny g.Value)) _ (by simp) (by simp)]
        simp [jsonStart, jsonEncodeTime, jsonEncodeLevel, jsonEncodeMessage,
          jsonEncodeStackTrace, jsonEnd, writeSafeField, memberConcat, strTok, htf,
          List.append_assoc]

/-- The record's pair list always holds at least the level member. -/
theorem recordPairs_ne_nil (tf ts : List Nat) (lev : Level) (msg : List Nat)
    (fields : Option (List Field)) (stack : Option (List Nat)) :
    recordPairs tf ts lev msg fields stack ≠ [] := by
  rw [recordPairs.eq_def]
  intro h
  rcases (List.append_eq_nil).mp h with ⟨h1, h2⟩
  rcases (List.append_eq_nil).mp h1 with ⟨h3, h4⟩
  rcases (List.append_eq_nil).mp h3 with ⟨h5, h6⟩
  exact absurd h6 (by simp)

/-- Every key/value pair of a record is a valid member: keys are valid
string bodies and values derive the JSON value grammar. -/
theorem recordPairs_valid (tf ts : List Nat) (lev : Level) (msg : List Nat)
    (fields : Option (List Field)) (stack : Option (List Nat))
    (hts : allSafe ts = true) :
    ∀ p ∈ recordPairs tf ts lev msg fields stack,
      validStrBody p.1 = true ∧ JsonValue p.2 := by
  intro p hp
  rw [recordPairs.eq_def] at hp
  rcases List.mem_append.mp hp with hp | hp
  · rcases List.mem_append.mp hp with hp | hp
    · rcases List.mem_append.mp hp with hp | hp
      · rcases List.mem_append.mp hp with hp | hp
        · split at hp
          · exact absurd hp (List.not_mem_nil p)
          · rw [List.mem_singleton] at hp
            subst hp
            exact ⟨(by decide : validStrBody keyTimeD = true),
              JsonValue.str (validStrBody_of_allSafe ts hts)⟩
        · rw [List.mem_singleton] at hp
          subst hp
          exact ⟨(by decide : validStrBody keyLevelD = true),
            JsonValue.str (validStrBody_of_allSafe _ (allSafe_levelString lev))⟩
      · rw [List.mem_singleton] at hp
        subst hp
        refine ⟨(by decide : validStrBody keyMsgD = true), ?_⟩
        rw [writeEscapedString_eq]
        exact JsonValue.str (escapeSpec_validBody msg)
    · rcases fields with _ | fs
      · exact absurd hp (List.not_mem_nil p)
      · simp only [List.mem_map] at hp
        obtain ⟨g, _, rfl⟩ := hp
        exact ⟨escapeSpec_validBody g.Key, jsonValue_writeAny g.Value⟩
  · rcases stack with _ | st
    · exact absurd hp (List.not_mem_nil p)
    · rw [List.mem_singleton] at hp
      subst hp
      refine ⟨(by decide : validStrBody keyStackD = true), ?_⟩
      rw [writeEscapedString_eq]
      exact JsonValue.str (escapeSpec_validBody st)

/-- On the cached time path — the time member already rendered as the safe
field `EncodeTime` writes whenever a cache is in effect — every record over
the modelled value families is a single valid JSON object with the stated
prefixes; `jsonRecordFullValid` lifts this to the complete `EncodeTime`
state step and `jsonRecordFull_time_keyless` shows it fails on the uncached
branch. -/
theorem jsonRecord_cached_valid (tf ts : List Nat) (lev : Level) (msg : List Nat)
    (fields : Option (List Field)) (stack : Option (List Nat))
    (hts : allSafe ts = true) :
    (∃ m, jsonRecord tf ts lev msg fields stack = (123 :: m ++ [125]) ++ [10] ∧
        JsonMembers m) ∧
    (tf = [] → (jsonRecord tf ts lev msg fields stack).take 8 =
        [123, 34, 108, 118, 108, 34, 58, 34]) ∧
    (tf ≠ [] → (jsonRecord tf ts lev msg fields stack).take 7 =
        [123, 34, 116, 115, 34, 58, 34]) := by
  refine ⟨⟨memberConcat (recordPairs tf ts lev msg fields stack), ?_, ?_⟩, ?_, ?_⟩
  · rw [jsonRecord_members]
    simp
  · exact jsonMembers_memberConcat _ (recordPairs_ne_nil tf ts lev msg fields stack)
      (recordPairs_valid tf ts lev msg fields stack hts)
  · intro htf
    subst htf
    rw [jsonRecord_members]
    rfl
  · intro htf
    rw [jsonRecord_members]
    simp only [recordPairs, if_neg htf]
    rfl

/-- Every derivation of the `members` production begins with a quoted key
followed by a colon: the byte list is `34 :: key ++ 34 :: 58 :: rest` with a
valid string body as the key. -/
theorem jsonMembers_head (m : List Nat) (h : JsonMembers m) :
    ∃ k w, validStrBody k = true ∧ m = 34 :: (k ++ 34 :: 58 :: w) := by
  cases h with
  | @last k v hk hv => exact ⟨k, v, hk, by simp [strTok, List.append_assoc]⟩
  | @cons k v rest hk hv hrest =>
    exact ⟨k, v ++ 44 :: rest, hk, by simp [strTok, List.append_assoc]⟩

/-- With a non-empty time format and positive precision, `encodeTimeStep`
writes on the cached branch: the memoised string as a safe field under the
`"ts"` key, the cache created on first use when absent. -/
theorem encodeTimeStep_cached (tf : List Nat) (p : Int) (format : Int → List Nat)
    (cache : Option TimeCacheState) (t : Int) (htf : tf ≠ []) (hp : 0 < p) :
    (encodeTimeStep tf p format cache t).1 =
      writeSafeField keyTimeD
        ((timeCacheCall format p (cache.getD timeCacheInit) t).1) := by
  rcases cache with _ | st
  · simp [encodeTimeStep, htf, hp]
  · simp [encodeTimeStep, htf]

/-- The string the time cache hands back is safe whenever the formatting
function produces safe strings and the memo held a safe string. -/
theorem timeCacheCall_safe (format : Int → List Nat) (p : Int)
    (st : TimeCacheState) (t : Int) (hfmt : ∀ u, allSafe (format u) = true)
    (hst : allSafe st.lastTimeStr = true) :
    allSafe ((timeCacheCall format p st t).1) = true := by
  rw [timeCacheCall]
  split
  · exact hst
  · exact hfmt t

/-- C3 (counterexample): with a non-empty time format but non-positive
`TimePrecision` — so `EncodeTime` never installs its cache — the uncached
branch (encoder_json.go lines 53-57) writes the formatted time with bare
quotes and no `"ts"` key.  On a concrete record (time format `"x"`, the
formatter returning `"1"`, level info, message `"h"`, no fields, no stack)
the output is the bytes of `{"1","lvl":"INFO","msg":"h"}` and a newline: it
does not begin with the claimed `{"ts":"` prefix although the time member is
present, and it is not a valid JSON object — between the braces a complete
string token is followed by a comma where the `members` production requires
a colon, so no `members` derivation matches the bytes. -/
theorem jsonRecordFull_time_keyless :
    jsonRecordFull [120] 0 (fun _ => [49]) none 5 Level.info [104] none none =
      (123 :: ([34, 49, 34, 44, 34, 108, 118, 108, 34, 58, 34, 73, 78, 70, 79,
        34, 44, 34, 109, 115, 103, 34, 58, 34, 104, 34] ++ [125])) ++ [10] ∧
    (jsonRecordFull [120] 0 (fun _ => [49]) none 5 Level.info [104]
        none none).take 7 ≠ [123, 34, 116, 115, 34, 58, 34] ∧
    ¬ ∃ m, jsonRecordFull [120] 0 (fun _ => [49]) none 5 Level.info [104]
        none none = (123 :: m ++ [125]) ++ [10] ∧ JsonMembers m := by
  have hmsg : writeEscapedString [104] = [34, 104, 34] := by
    rw [writeEscapedString, escLoop_eq]
    rw [escapeSpec, if_neg (by decide), if_neg (by decide)]
    rw [escapeSpec]
    simp
  have hout : jsonRecordFull [120] 0 (fun _ => [49]) none 5 Level.info [104]
      none none =
      (123 :: ([34, 49, 34, 44, 34, 108, 118, 108, 34, 58, 34, 73, 78, 70, 79,
        34, 44, 34, 109, 115, 103, 34, 58, 34, 104, 34] ++ [125])) ++ [10] := by
    simp [jsonRecordFull, encodeTimeStep, jsonStart, jsonEncodeLevel,
      jsonEncodeMessage, jsonEncodeFields, jsonEnd, writeSafeField, keyTimeD,
      keyLevelD, keyMsgD, levelString, hmsg]
  refine ⟨hout, ?_, ?_⟩
  · rw [hout]
    decide
  · rintro ⟨m, hEq, hM⟩
    rw [hout] at hEq
    obtain ⟨k, w, hk, hshape⟩ := jsonMembers_head m hM
    subst hshape
    simp only [List.cons_append, List.nil_append, List.append_assoc,
      List.cons.injEq] at hEq
    rcases k with _ | ⟨a, k⟩
    · simp at hEq
    · simp only [List.cons_append, List.cons.injEq] at hEq
      obtain ⟨-, -, ha, hEq⟩ := hEq
      rcases k with _ | ⟨b, k⟩
      · simp at hEq
      · simp only [List.cons_append, List.cons.injEq] at hEq
        obtain ⟨hb, -⟩ := hEq
        subst ha
        subst hb
        rw [show validStrBody (49 :: 34 :: k) = false from rfl] at hk
        exact absurd hk (by decide)

/-- C3 (amended): over the modelled value families (strings, byte slices,
`nil`, booleans, integers) and with the default keys, whenever the time
format is empty or `TimePrecision` is positive (the constructor default) —
so `EncodeTime` writes nothing or goes through its time cache — the full
JSON callback sequence produces a single valid JSON object — brace, a
derivation of the `members` production, closing brace — followed by exactly
one terminal newline; with an empty time format the object begins at the
level key (`{"lvl":"`), and otherwise at the time key (`{"ts":"`), with no
empty time field and no leading comma.  The hypotheses ask that the
time-formatting function and any previously memoised timestamp are safe
formatted strings, as Go's time layouts produce.  When the time format is
non-empty and the precision non-positive the output is instead keyless and
invalid (`jsonRecordFull_time_keyless`); non-finite float values and failed
reflective encodes, outside the modelled families, likewise break
validity. -/
theorem jsonRecordFullValid (tf : List Nat) (p : Int) (format : Int → List Nat)
    (cache : Option TimeCacheState) (t : Int) (lev : Level) (msg : List Nat)
    (fields : Option (List Field)) (stack : Option (List Nat))
    (hfmt : ∀ u, allSafe (format u) = true)
    (hcache : ∀ st, cache = some st → allSafe st.lastTimeStr = true)
    (hp : tf = [] ∨ 0 < p) :
    (∃ m, jsonRecordFull tf p format cache t lev msg fields stack =
        (123 :: m ++ [125]) ++ [10] ∧ JsonMembers m) ∧
    (tf = [] → (jsonRecordFull tf p format cache t lev msg fields stack).take 8 =
        [123, 34, 108, 118, 108, 34, 58, 34]) ∧
    (tf ≠ [] → (jsonRecordFull tf p format cache t lev msg fields stack).take 7 =
        [123, 34, 116, 115, 34, 58, 34]) := by
  by_cases htf : tf = []
  · subst htf
    have heq : jsonRecordFull [] p format cache t lev msg fields stack =
        jsonRecord [] [] lev msg fields stack := by
      rw [jsonRecordFull.eq_def, jsonRecord.eq_def, encodeTimeStep]
      simp [jsonEncodeTime]
    rw [heq]
    exact jsonRecord_cached_valid [] [] lev msg fields stack (by decide)
  · have hp' : 0 < p := hp.resolve_left htf
    have hsafe : allSafe ((timeCacheCall format p (cache.getD timeCacheInit) t).1)
        = true := by
      apply timeCacheCall_safe format p _ t hfmt
      rcases cache with _ | st
      · decide
      · exact hcache st rfl
    have heq : jsonRecordFull tf p format cache t lev msg fields stack =
        jsonRecord tf ((timeCacheCall format p (cache.getD timeCacheInit) t).1)
          lev msg fields stack := by
      rw [jsonRecordFull.eq_def, jsonRecord.eq_def,
        encodeTimeStep_cached tf p format cache t htf hp', jsonEncodeTime, if_neg htf]
    rw [heq]
    exact jsonRecord_cached_valid tf _ lev msg fields stack hsafe

/-- C3 (witness): a concrete record with a field and a stack trace, a
positive precision and a fresh cache parses as a single JSON object. -/
theorem jsonRecordFullValid_witness :
    ∃ m, jsonRecordFull [49] 1 (fun _ => [48]) none 5 Level.info [104]
        (some [⟨[107], GoValue.vint 7⟩]) (some [115]) =
        (123 :: m ++ [125]) ++ [10] ∧ JsonMembers m :=
  (jsonRecordFullValid [49] 1 (fun _ => [48]) none 5 Level.info [104]
      (some [⟨[107], GoValue.vint 7⟩]) (some [115])
      (fun _ => rfl) (fun st h => by cases h) (Or.inr (by decide))).1

end Blip
